import Mathlib

/-!
# Verification of the outline-wiki-translator core

Shallow embedding of the repository's core components:

* data model (`src/types.ts`): `OutlineDocument`, `FolderMapping`,
  `TranslatedDocument` (ledger entry), `OutlineDocumentCreateRequest`;
  JavaScript `Date` values (ISO strings compared after `new Date(...)`)
  are modelled as integers (epoch milliseconds);
* the hierarchy builder and path query
  (`src/services/documentHierarchy.ts`, `buildHierarchy` /
  `getDocumentPath`);
* the folder resolver (`ensureFolderStructure` / `findFolderByName`);
* the translation ledger (`src/services/translationTracker.ts`);
* the cost/budget gates (`src/services/costEstimator.ts`,
  `src/services/usageMonitor.ts`), with USD amounts modelled as exact
  rationals (the gate claims are about comparison outcomes, not float
  rounding);
* the orchestrator gate and per-document loop (`src/index.ts`).

External collaborators (the Outline HTTP API and the OpenAI translation
engine) are modelled as function parameters / oracles, matching the
spec's treatment of them as interfaces only.
-/

/-- `OutlineDocument` (src/types.ts): the fields the core reads.
`updatedAt` is the last-modified timestamp (epoch ms). -/
structure OutlineDocument where
  id : String
  title : String
  text : String
  emoji : Option String
  collectionId : String
  parentDocumentId : Option String
  updatedAt : Int
deriving Repr, DecidableEq

/-- `FolderMapping` (src/services/documentHierarchy.ts). -/
structure FolderMapping where
  sourceId : String
  targetId : String
  sourceName : String
  targetName : String
deriving Repr, DecidableEq

/-- `TranslatedDocument` (src/types.ts): one ledger entry.
Timestamps are epoch milliseconds. -/
structure TranslatedDocument where
  originalId : String
  translatedId : String
  originalTitle : String
  translatedTitle : String
  originalUpdatedAt : Int
  translatedAt : Int
deriving Repr, DecidableEq

/-- `OutlineDocumentCreateRequest` (src/types.ts), restricted to the
fields the core ever sets. -/
structure OutlineDocumentCreateRequest where
  title : String
  text : String
  emoji : Option String
  collectionId : String
  parentDocumentId : Option String
deriving Repr, DecidableEq

/-- Lookup in a JavaScript-object-as-map modelled as an association
list where the most recent insertion is at the front. -/
def lookupA {α : Type} (l : List (String × α)) (k : String) : Option α :=
  (l.find? (fun kv => kv.1 == k)).map (fun kv => kv.2)

/-- Insertion (`obj[k] = v`): prepend; `lookupA` sees the newest binding. -/
def insertA {α : Type} (l : List (String × α)) (k : String) (v : α) :
    List (String × α) :=
  (k, v) :: l

/-- Deletion (`delete obj[k]`). -/
def removeA {α : Type} (l : List (String × α)) (k : String) :
    List (String × α) :=
  l.filter (fun kv => !(kv.1 == k))

/-- `String.prototype.trim()`: strip leading and trailing whitespace
(defined over the character list so that it evaluates inside the
kernel). -/
def jsTrim (s : String) : String :=
  String.mk
    (((s.data.dropWhile Char.isWhitespace).reverse.dropWhile
      Char.isWhitespace).reverse)

/-- JavaScript truthiness guard used by the source on optional strings
(`if (x) { req.field = x }`): the empty string is falsy, so the field
stays absent for `""` just as for `undefined`. -/
def jsTruthyStr : Option String → Option String
  | none => none
  | some s => if s == "" then none else some s

/-! ## Translation ledger (`src/services/translationTracker.ts`)

The in-memory record is `translations : List (String × TranslatedDocument)`.
The backing file is modelled as `Option` of a record: `none` means the
file is missing (or unreadable — `loadTranslations` catches read/parse
errors the same way it handles a missing file and returns `{}`). -/

/-- The tracker's in-memory record together with the stable-storage
copy of it. -/
structure TrackerWorld where
  mem : List (String × TranslatedDocument)
  disk : Option (List (String × TranslatedDocument))
deriving Repr, DecidableEq

/-- `loadTranslations`: missing (or unreadable) file yields the empty
record, not an error. -/
def loadTranslations (file : Option (List (String × TranslatedDocument))) :
    List (String × TranslatedDocument) :=
  match file with
  | none => []
  | some r => r

/-- Tracker construction: load-at-construction from the backing file. -/
def mkTracker (file : Option (List (String × TranslatedDocument))) :
    TrackerWorld :=
  { mem := loadTranslations file, disk := file }

/-- `saveTranslations`: write the full in-memory record to stable
storage; a failing write (`writeOk = false`) rethrows the error. -/
def saveTranslations (writeOk : Bool) (w : TrackerWorld) :
    Except String TrackerWorld :=
  if writeOk then Except.ok { w with disk := some w.mem }
  else Except.error "Error saving translation records"

/-- `isDocumentTranslated`. -/
def isDocumentTranslated (translations : List (String × TranslatedDocument))
    (documentId : String) : Bool :=
  (lookupA translations documentId).isSome

/-- `getTranslatedDocument`. -/
def getTranslatedDocument (translations : List (String × TranslatedDocument))
    (documentId : String) : Option TranslatedDocument :=
  lookupA translations documentId

/-- The entry `addTranslation` stores; `now` is the mutation-time stamp
(`new Date().toISOString()`). -/
def mkLedgerEntry (originalDoc translatedDoc : OutlineDocument) (now : Int) :
    TranslatedDocument :=
  { originalId := originalDoc.id
    translatedId := translatedDoc.id
    originalTitle := originalDoc.title
    translatedTitle := translatedDoc.title
    originalUpdatedAt := originalDoc.updatedAt
    translatedAt := now }

/-- `addTranslation`: store the entry in memory, then persist the full
record synchronously; a failed persistence write propagates as an error. -/
def addTranslation (writeOk : Bool) (w : TrackerWorld)
    (originalDoc translatedDoc : OutlineDocument) (now : Int) :
    Except String TrackerWorld :=
  let entry := mkLedgerEntry originalDoc translatedDoc now
  let w1 : TrackerWorld := { w with mem := insertA w.mem originalDoc.id entry }
  saveTranslations writeOk w1

/-- `removeTranslation`: delete and persist only when the key is present. -/
def removeTranslation (writeOk : Bool) (w : TrackerWorld)
    (documentId : String) : Except String TrackerWorld :=
  if (documentId ∈ w.mem.map (fun kv => kv.1)) then
    saveTranslations writeOk { w with mem := removeA w.mem documentId }
  else Except.ok w

/-- `needsUpdate` (translationTracker.ts lines 76-88): `false` without a
ledger entry; otherwise compares the document's last-modified time with
the entry's translation time. -/
def needsUpdate (translations : List (String × TranslatedDocument))
    (document : OutlineDocument) : Bool :=
  match getTranslatedDocument translations document.id with
  | none => false
  | some existingTranslation =>
      decide (document.updatedAt > existingTranslation.translatedAt)

/-! ## Cost estimation and budget gates (`costEstimator.ts`, `usageMonitor.ts`)

USD amounts and token counts are exact here (`ℚ` / `ℕ`); the claims
about the gates concern which side of the comparison wins, not binary
floating-point rounding.  A configured ceiling is `Option ℚ`
(`maxSpendingUsd?: number`); JavaScript truthiness makes both `undefined`
and `0` skip the comparison. -/

/-- `CostEstimate` (src/types.ts). -/
structure CostEstimate where
  totalDocuments : Nat
  estimatedTokens : Nat
  estimatedCostUsd : ℚ
  modelUsed : String
deriving Repr, DecidableEq

/-- $2.50 per 1M input tokens. -/
def GPT4O_INPUT_COST_PER_TOKEN : ℚ := 25 / 10000000

/-- $10.00 per 1M output tokens. -/
def GPT4O_OUTPUT_COST_PER_TOKEN : ℚ := 1 / 100000

/-- `Math.ceil(contentLength / 4) + 100 + 50` (chars-per-token 4, system
prompt 100, translation overhead 50). -/
def estimateInputTokens (document : OutlineDocument) : Nat :=
  (document.text.length + document.title.length + 3) / 4 + 100 + 50

/-- `Math.ceil(contentLength / 4)`. -/
def estimateOutputTokens (document : OutlineDocument) : Nat :=
  (document.text.length + document.title.length + 3) / 4

/-- `CostEstimator.estimateDocumentCost`. -/
def estimateDocumentCost (document : OutlineDocument) : ℚ :=
  (estimateInputTokens document : ℚ) * GPT4O_INPUT_COST_PER_TOKEN +
    (estimateOutputTokens document : ℚ) * GPT4O_OUTPUT_COST_PER_TOKEN

/-- `CostEstimator.estimateBatchCost`. -/
def estimateBatchCost (documents : List OutlineDocument) : CostEstimate :=
  { totalDocuments := documents.length
    estimatedTokens :=
      (documents.map
        (fun d => estimateInputTokens d + estimateOutputTokens d)).sum
    estimatedCostUsd := (documents.map estimateDocumentCost).sum
    modelUsed := "gpt-4o" }

/-- `CostEstimator.confirmCostWithUser` (costEstimator.ts lines 378-398):
rejects only when the ceiling is truthy (present and nonzero) and the
estimate strictly exceeds it. -/
def confirmCostWithUser (estimate : CostEstimate) (maxSpending : Option ℚ) :
    Bool :=
  match maxSpending with
  | none => true
  | some m => if m ≠ 0 ∧ estimate.estimatedCostUsd > m then false else true

/-- `UsageMonitor.checkSpendingLimit` (usageMonitor.ts lines 32-73):
`!maxSpending` (absent or zero ceiling) passes immediately; otherwise
blocks exactly when the estimate strictly exceeds the ceiling. -/
def checkSpendingLimit (estimatedCost : ℚ) (maxSpending : Option ℚ) : Bool :=
  match maxSpending with
  | none => true
  | some m =>
      if m = 0 then true
      else if estimatedCost > m then false else true

/-! ## Hierarchy builder (`documentHierarchy.ts`, `buildHierarchy`)

`buildHierarchy` runs two passes over the flat document list: pass 1
keys one mutable node per document by id (later duplicates overwrite
earlier ones in the map), pass 2 sets each node's `parent`
back-reference whenever the declared `parentDocumentId` is found in the
map.  The functions below compute the observable result of those two
passes: `nodeDoc` is the document wrapped by the surviving node of an
id, and `builtParent` is that node's final parent back-reference. -/

/-- An id is known to the hierarchy when some input document carries it. -/
def knownId (docs : List OutlineDocument) (i : String) : Bool :=
  docs.any (fun d => d.id == i)

/-- The document of the node that `documentMap` / `sourceHierarchy`
holds for id `i` after pass 1: the last input document with that id. -/
def nodeDoc (docs : List OutlineDocument) (i : String) :
    Option OutlineDocument :=
  (docs.filter (fun d => d.id == i)).getLast?

/-- Pass 2 resolves a document's declared parent exactly when the
declared id is present in the input set. -/
def parentResolvable (docs : List OutlineDocument) (d : OutlineDocument) :
    Bool :=
  match d.parentDocumentId with
  | some p => knownId docs p
  | none => false

/-- The final `parent` back-reference of the node for id `i`: pass 2
assigns `node.parent` once for every input document with this id whose
declared parent resolves, so the last such document wins; if none
resolves the node stays a root (`parent` unset). -/
def builtParent (docs : List OutlineDocument) (i : String) : Option String :=
  match (docs.filter (fun d => d.id == i && parentResolvable docs d)).getLast? with
  | some d => d.parentDocumentId
  | none => none

/-- The parent back-reference as a relation: `builtParentRel docs i p`
holds when the node for `i` points at the node for `p`. -/
def builtParentRel (docs : List OutlineDocument) (i p : String) : Prop :=
  builtParent docs i = some p

/-- The declared parent relation of the raw input: some input document
carries id `i` and declares parent `p` (whether or not `p` is present). -/
def declParentRel (docs : List OutlineDocument) (i p : String) : Prop :=
  ∃ d ∈ docs, d.id = i ∧ d.parentDocumentId = some p

/-- No id is its own strict ancestor under the declared parent pointers. -/
def DeclAcyclic (docs : List OutlineDocument) : Prop :=
  ∀ i, ¬ Relation.TransGen (declParentRel docs) i i

/-- No node of the built forest is its own strict ancestor. -/
def BuiltAcyclic (docs : List OutlineDocument) : Prop :=
  ∀ i, ¬ Relation.TransGen (builtParentRel docs) i i

/-- One step of the upward walk `current = current.parent`. -/
def stepParent (docs : List OutlineDocument) :
    Option String → Option String
  | none => none
  | some i => builtParent docs i

/-- `n` steps of the upward walk. -/
def iterParent (docs : List OutlineDocument) (n : Nat)
    (c : Option String) : Option String :=
  (stepParent docs)^[n] c

/-- `getDocumentPath`, fuelled: the source's `while (current)` loop
pushes the current node on the front of the path and moves to its
parent.  The loop terminates exactly when the walk reaches a root; on a
cyclic forest it never does, which the fuel bound makes observable
(`docs.length + 1` steps suffice for every acyclic input, see
`iterParent_reaches_none`). -/
def pathAux (docs : List OutlineDocument) :
    Nat → Option String → List String → List String
  | _, none, acc => acc
  | 0, some _, acc => acc
  | fuel + 1, some i, acc => pathAux docs fuel (builtParent docs i) (i :: acc)

/-- `getDocumentPath(documentId)`: ids of the nodes from the root down
to the named node; empty when the id is unknown. -/
def getDocumentPath (docs : List OutlineDocument) (fuel : Nat)
    (documentId : String) : List String :=
  pathAux docs fuel
    (if knownId docs documentId then some documentId else none) []

/-! ## Folder resolver (`documentHierarchy.ts`, `ensureFolderStructure`)

The resolver's collaborators are modelled as follows:

* `tr : String → String` — the translation engine's reply for a title
  (`translateTitle` never throws: it falls back to the original title
  on failure, translationService.ts lines 201-204);
* `trBody : String → String` — its reply for a document body (a run in
  which a body translation throws aborts the current document; the
  per-document failure path is modelled with the orchestrator loop);
* `createDocument` — the document store assigns a fresh opaque id to
  each created document; the generator below is any injective source of
  ids distinct from pre-existing ones;
* `findFolderByName` — takes the outcome of the
  `getDocumentsByCollection` transport call as an explicit
  `Except` argument, so both the success and the caught-failure path of
  its `try/catch` are represented.
-/

/-- The mutable state one run threads through the resolver: the
in-memory `folderMappings` cache, the tracker's record, the documents
existing in the target collection, and the document store's id
generator state.  `now` is the clock used for ledger stamps. -/
structure ResolverState where
  folderMappings : List (String × FolderMapping)
  translations : List (String × TranslatedDocument)
  targetDocs : List OutlineDocument
  nextId : Nat
  now : Int
deriving Repr, DecidableEq

/-- The opaque id the document store assigns to the `n`-th created
document (injective, never the empty string). -/
def freshId (n : Nat) : String :=
  String.mk (List.replicate (n + 1) 'x')

/-- `outlineClient.createDocument`: the store materialises the request
as a published document with a fresh id and returns it. -/
def createDocument (st : ResolverState)
    (request : OutlineDocumentCreateRequest) :
    ResolverState × OutlineDocument :=
  let newDoc : OutlineDocument :=
    { id := freshId st.nextId
      title := request.title
      text := request.text
      emoji := request.emoji
      collectionId := request.collectionId
      parentDocumentId := request.parentDocumentId
      updatedAt := st.now }
  ({ st with targetDocs := st.targetDocs ++ [newDoc],
             nextId := st.nextId + 1 }, newDoc)

/-- `findFolderByName` (documentHierarchy.ts lines 238-259): search the
fetched collection for the first document whose title exactly equals
the translated name and whose parent exactly equals the current parent;
a transport failure is caught and treated as "not found". -/
def findFolderByName (fetched : Except String (List OutlineDocument))
    (folderName : String) (parentId : Option String) :
    Option OutlineDocument :=
  match fetched with
  | Except.error _ => none
  | Except.ok documents =>
      documents.find?
        (fun doc => doc.title == folderName && doc.parentDocumentId == parentId)

/-- The body of the `for` loop of `ensureFolderStructure` for one
ancestor `sourceDoc`, given the outcome `fetched` of the destination
search's transport call (the real call fetches the target collection,
i.e. `Except.ok st.targetDocs`, unless the transport fails).  Priority
order as in the source: in-memory mapping, then ledger, then
destination search, then creation. -/
def resolveAncestorStepFetch (tr trBody : String → String)
    (targetCollectionId : String)
    (fetched : Except String (List OutlineDocument))
    (st : ResolverState) (currentParentId : Option String)
    (sourceDoc : OutlineDocument) : ResolverState × Option String :=
  match lookupA st.folderMappings sourceDoc.id with
  | some existingMapping => (st, some existingMapping.targetId)
  | none =>
    match getTranslatedDocument st.translations sourceDoc.id with
    | some existingTranslation =>
        let mapping : FolderMapping :=
          { sourceId := sourceDoc.id
            targetId := existingTranslation.translatedId
            sourceName := sourceDoc.title
            targetName := existingTranslation.translatedTitle }
        ({ st with folderMappings :=
              insertA st.folderMappings sourceDoc.id mapping },
         some existingTranslation.translatedId)
    | none =>
      let translatedFolderName := tr sourceDoc.title
      match findFolderByName fetched translatedFolderName currentParentId with
      | some existingFolder =>
          let mapping : FolderMapping :=
            { sourceId := sourceDoc.id
              targetId := existingFolder.id
              sourceName := sourceDoc.title
              targetName := translatedFolderName }
          ({ st with folderMappings :=
                insertA st.folderMappings sourceDoc.id mapping },
           some existingFolder.id)
      | none =>
          let translatedContent :=
            if sourceDoc.text ≠ "" ∧ (jsTrim sourceDoc.text).length > 0 then
              trBody sourceDoc.text
            else ""
          let request : OutlineDocumentCreateRequest :=
            { title := translatedFolderName
              text := translatedContent
              emoji := jsTruthyStr sourceDoc.emoji
              collectionId := targetCollectionId
              parentDocumentId := jsTruthyStr currentParentId }
          let created := createDocument st request
          let newFolder := created.2
          let st1 := created.1
          let newTranslations :=
            insertA st1.translations sourceDoc.id
              (mkLedgerEntry sourceDoc newFolder st.now)
          let st2 : ResolverState := { st1 with translations := newTranslations }
          let mapping : FolderMapping :=
            { sourceId := sourceDoc.id
              targetId := newFolder.id
              sourceName := sourceDoc.title
              targetName := translatedFolderName }
          ({ st2 with folderMappings :=
                insertA st2.folderMappings sourceDoc.id mapping },
           some newFolder.id)

/-- One loop iteration with the destination search actually hitting the
target collection (the non-failing transport). -/
def resolveAncestorStep (tr trBody : String → String)
    (targetCollectionId : String) (st : ResolverState)
    (currentParentId : Option String) (sourceDoc : OutlineDocument) :
    ResolverState × Option String :=
  resolveAncestorStepFetch tr trBody targetCollectionId
    (Except.ok st.targetDocs) st currentParentId sourceDoc

/-- The `for` loop of `ensureFolderStructure` over the ancestor path
(ids root-to-leaf); an id without a node is skipped
(`if (!folderNode) continue`). -/
def ensureFolderLoop (tr trBody : String → String)
    (docs : List OutlineDocument) (targetCollectionId : String) :
    List String → ResolverState → Option String →
    ResolverState × Option String
  | [], st, currentParentId => (st, currentParentId)
  | i :: rest, st, currentParentId =>
    match nodeDoc docs i with
    | none => ensureFolderLoop tr trBody docs targetCollectionId rest st
        currentParentId
    | some sourceDoc =>
        let stepped := resolveAncestorStep tr trBody targetCollectionId st
          currentParentId sourceDoc
        ensureFolderLoop tr trBody docs targetCollectionId rest stepped.1
          stepped.2

/-- `ensureFolderStructure(documentId, targetCollectionId)`
(documentHierarchy.ts lines 98-233): walk the proper-ancestor path of
the document root-to-leaf and return the destination id of its
immediate parent (`undefined` for root-level documents).  The path is
computed with the fuel bound that suffices for every acyclic forest. -/
def ensureFolderStructure (tr trBody : String → String)
    (docs : List OutlineDocument) (targetCollectionId : String)
    (st : ResolverState) (documentId : String) :
    ResolverState × Option String :=
  let path := getDocumentPath docs (docs.length + 1) documentId
  let folderPath := path.dropLast
  if folderPath.isEmpty then (st, none)
  else ensureFolderLoop tr trBody docs targetCollectionId folderPath st none

/-- Running `ensureFolderStructure` once per leaf, in the given order,
keeping only the state. -/
def runResolver (tr trBody : String → String)
    (docs : List OutlineDocument) (targetCollectionId : String)
    (leaves : List String) (st : ResolverState) : ResolverState :=
  leaves.foldl
    (fun s leaf => (ensureFolderStructure tr trBody docs targetCollectionId
      s leaf).1) st

/-- The clean state a fresh run starts from: empty cache, empty ledger,
empty target collection. -/
def initialResolverState (now : Int) : ResolverState :=
  { folderMappings := [], translations := [], targetDocs := [],
    nextId := 0, now := now }

/-- The proper ancestors (root-to-leaf) of one leaf, as
`ensureFolderStructure` computes them. -/
def properAncestors (docs : List OutlineDocument) (leaf : String) :
    List String :=
  (getDocumentPath docs (docs.length + 1) leaf).dropLast

/-- All proper ancestors of a set of leaves (with repetitions). -/
def allProperAncestors (docs : List OutlineDocument)
    (leaves : List String) : List String :=
  leaves.flatMap (properAncestors docs)

/-- The destination target id a run has recorded for a source id. -/
def mappedTarget (st : ResolverState) (sourceId : String) : Option String :=
  (lookupA st.folderMappings sourceId).map (fun m => m.targetId)

/-- The destination id of the folder standing for the (optional) source
parent of an ancestor. -/
def optTarget (st : ResolverState) : Option String → Option String
  | none => none
  | some p => mappedTarget st p

/-- Pull a destination id back to the source id mapped onto it. -/
def backSource (st : ResolverState) : Option String → Option String
  | none => none
  | some tid =>
      (st.folderMappings.find? (fun kv => kv.2.targetId == tid)).map
        (fun kv => kv.2.sourceId)

/-- The source-level parent linkage a run has materialised for a source
id: `none` when the id was never resolved, otherwise the destination
folder's parent pulled back to source ids.  Two runs materialise
identical parent linkage exactly when these functions agree. -/
def resolvedParentSource (st : ResolverState) (sourceId : String) :
    Option (Option String) :=
  (lookupA st.folderMappings sourceId).bind (fun m =>
    (st.targetDocs.find? (fun f => f.id == m.targetId)).map (fun f =>
      backSource st f.parentDocumentId))

/-! ## Orchestrator (`src/index.ts`)

The run orchestrator's budget gate and per-document loop, from the cost
estimate (index.ts line 280) to the end of the loop (line 442).  The
collaborator calls a loop iteration makes are supplied by a `LoopEnv`:
fallible operations return `Except` (a thrown error lands in the
iteration's `catch`), while `translateTitle` is total because the
service catches its own errors and falls back to the original title.
The folder-resolution stage reuses the resolver above with its
collaborators assumed to succeed; the failure paths the error-handling
claims are about — translation or creation of the document itself —
are the fallible stages here. -/

/-- `TranslationStats` (src/types.ts), the per-run counters. -/
structure TranslationStats where
  total : Nat
  translated : Nat
  skipped : Nat
  errors : Nat
deriving Repr, DecidableEq

/-- The configuration slice the gate and loop read. -/
structure OrchestratorConfig where
  targetCollectionId : String
  maxSpendingUsd : Option ℚ
  dryRun : Bool
deriving Repr, DecidableEq

/-- Collaborator behaviour for one run of the loop. -/
structure LoopEnv where
  getDocumentInfo : String → Except String OutlineDocument
  translateBody : String → Except String String
  translateTitleDoc : String → String
  createOk : Nat → Bool
  trTitle : String → String
  trFolderBody : String → String

/-- One iteration of the per-document loop (index.ts lines 337-442):
dry-run skip, staleness skip, fetch, empty-content skip, folder
resolution, translation, creation, ledger record; any failure of a
fallible stage is caught, counted as an error, and the iteration ends
with the state the failed stage left behind. -/
def processOne (env : LoopEnv) (cfg : OrchestratorConfig)
    (docs : List OutlineDocument) (st : ResolverState)
    (stats : TranslationStats) (i : Nat) (doc : OutlineDocument) :
    ResolverState × TranslationStats :=
  if cfg.dryRun && !(i == 0) then
    (st, { stats with skipped := stats.skipped + 1 })
  else if isDocumentTranslated st.translations doc.id &&
      !(needsUpdate st.translations doc) then
    (st, { stats with skipped := stats.skipped + 1 })
  else
    match env.getDocumentInfo doc.id with
    | Except.error _ => (st, { stats with errors := stats.errors + 1 })
    | Except.ok fullDoc =>
      if fullDoc.text == "" || (jsTrim fullDoc.text).length == 0 then
        (st, { stats with skipped := stats.skipped + 1 })
      else
        let ensured := ensureFolderStructure env.trTitle env.trFolderBody
          docs cfg.targetCollectionId st doc.id
        let st1 := ensured.1
        let parentDocumentId := ensured.2
        match env.translateBody fullDoc.text with
        | Except.error _ => (st1, { stats with errors := stats.errors + 1 })
        | Except.ok translatedContent =>
          let translatedTitle := env.translateTitleDoc fullDoc.title
          let request : OutlineDocumentCreateRequest :=
            { title := translatedTitle
              text := translatedContent
              emoji := jsTruthyStr fullDoc.emoji
              collectionId := cfg.targetCollectionId
              parentDocumentId := jsTruthyStr parentDocumentId }
          if env.createOk st1.nextId then
            let created := createDocument st1 request
            let newTranslations :=
              insertA created.1.translations fullDoc.id
                (mkLedgerEntry fullDoc created.2 st.now)
            ({ created.1 with translations := newTranslations },
             { stats with translated := stats.translated + 1 })
          else (st1, { stats with errors := stats.errors + 1 })

/-- The per-document loop over the batch. -/
def runLoop (env : LoopEnv) (cfg : OrchestratorConfig)
    (docs : List OutlineDocument) :
    List OutlineDocument → ResolverState → TranslationStats → Nat →
    ResolverState × TranslationStats
  | [], st, stats, _ => (st, stats)
  | doc :: rest, st, stats, i =>
      let r := processOne env cfg docs st stats i doc
      runLoop env cfg docs rest r.1 r.2 (i + 1)

/-- The documents the gate's cost estimate covers: in dry-run mode only
the first of the batch (index.ts lines 276-278). -/
def gateDocuments (cfg : OrchestratorConfig)
    (documentsToProcess : List OutlineDocument) : List OutlineDocument :=
  if cfg.dryRun then documentsToProcess.take 1 else documentsToProcess

/-- Result of one orchestrator invocation from the budget gate on. -/
inductive BatchResult where
  | rejected (st : ResolverState)
  | completed (st : ResolverState) (stats : TranslationStats)
deriving Repr, DecidableEq

/-- The orchestrator from the cost estimate to the end of the loop
(index.ts lines 280-442): estimate, gate on `confirmCostWithUser` and
`checkSpendingLimit`, then run the per-document loop; rejection returns
before any document is touched. -/
def runBatch (env : LoopEnv) (cfg : OrchestratorConfig)
    (docs : List OutlineDocument)
    (documentsToProcess : List OutlineDocument) (st : ResolverState) :
    BatchResult :=
  let costEstimate := estimateBatchCost (gateDocuments cfg documentsToProcess)
  if !(confirmCostWithUser costEstimate cfg.maxSpendingUsd) then
    BatchResult.rejected st
  else if !(checkSpendingLimit costEstimate.estimatedCostUsd
      cfg.maxSpendingUsd) then
    BatchResult.rejected st
  else
    let stats0 : TranslationStats :=
      { total := documentsToProcess.length, translated := 0, skipped := 0,
        errors := 0 }
    let r := runLoop env cfg docs documentsToProcess st stats0 0
    BatchResult.completed r.1 r.2

/-! ## Concrete inputs used by counterexamples and witnesses -/

/-- A source document with the given id, title and declared parent. -/
def mkDoc (id title : String) (parent : Option String) : OutlineDocument :=
  { id := id, title := title, text := "", emoji := none,
    collectionId := "src", parentDocumentId := parent, updatedAt := 0 }

/-- The identity collaborator (a translation engine may return its
input unchanged, translationService.ts lines 34-39 and 170-172). -/
def trId : String → String := fun s => s

/-- Two documents declaring each other as parents: both ids are present
in the input set, so pass 2 links them into a parent cycle. -/
def cyclicDocs : List OutlineDocument :=
  [mkDoc "A" "a" (some "B"), mkDoc "B" "b" (some "A")]

/-- A second mutually-referential input (distinct ids). -/
def cyclicDocsXY : List OutlineDocument :=
  [mkDoc "X" "x" (some "Y"), mkDoc "Y" "y" (some "X")]

/-- A three-document chain `A → B → L`. -/
def chainDocs : List OutlineDocument :=
  [mkDoc "A" "Alpha" none, mkDoc "B" "Beta" (some "A"),
   mkDoc "L" "Leaf" (some "B")]

/-- A forest in which two sibling folders (`AA`, `CC`, both children of
`R`) carry the same title, so their translated titles collide. -/
def collideDocs : List OutlineDocument :=
  [mkDoc "R" "Root" none, mkDoc "AA" "X" (some "R"),
   mkDoc "CC" "X" (some "R"), mkDoc "L1" "LeafOne" (some "AA"),
   mkDoc "L2" "LeafTwo" (some "CC")]

/-- A collaborator environment in which every remote call succeeds and
every translation is the identity. -/
def envFor (docs : List OutlineDocument) : LoopEnv :=
  { getDocumentInfo := fun i =>
      match nodeDoc docs i with
      | some d => Except.ok d
      | none => Except.error "Outline API error"
    translateBody := fun s => Except.ok s
    translateTitleDoc := trId
    createOk := fun _ => true
    trTitle := trId
    trFolderBody := trId }

/-- `envFor docs` with a failing body-translation engine. -/
def envBodyFail (docs : List OutlineDocument) : LoopEnv :=
  { envFor docs with translateBody := fun _ => Except.error "Translation failed" }

/-- A decidable certificate that the declared parent pointers of an
input are acyclic: a rank function that strictly decreases from child
to declared parent. -/
def rankOk (docs : List OutlineDocument) (rk : String → Nat) : Bool :=
  docs.all (fun d =>
    match d.parentDocumentId with
    | some p => decide (rk p < rk d.id)
    | none => true)

/-- A rank certificate for `chainDocs`. -/
def chainRank : String → Nat :=
  fun s => if s = "A" then 0 else if s = "B" then 1 else 2

/-- A single document whose declared parent id is absent from the
input set. -/
def danglingDocs : List OutlineDocument :=
  [mkDoc "D" "Doc" (some "GONE")]

/-- A rank certificate for `danglingDocs`. -/
def danglingRank : String → Nat :=
  fun s => if s = "D" then 1 else 0

/-- A two-document chain with non-empty bodies, for exercising the
orchestrator loop. -/
def loopRoot : OutlineDocument :=
  { mkDoc "A" "Alpha" none with text := "hola" }

/-- The leaf of `loopDocs`. -/
def loopLeaf : OutlineDocument :=
  { mkDoc "L" "Leaf" (some "A") with text := "contenido" }

/-- The input collection for the orchestrator-loop examples. -/
def loopDocs : List OutlineDocument := [loopRoot, loopLeaf]

/-- The configuration for the orchestrator-loop examples. -/
def loopCfg : OrchestratorConfig :=
  { targetCollectionId := "tgt", maxSpendingUsd := none, dryRun := false }

/-- The source ids the run has resolved so far (in-memory cache keys). -/
def mappingKeys (st : ResolverState) : List String :=
  st.folderMappings.map (fun kv => kv.1)

/-- Distinct sibling folders keep distinct titles after translation:
two different input documents whose nodes share the same parent
back-reference never translate to the same title.  (Without this, the
destination-search fallback adopts one sibling's folder for the other —
see the collision counterexample.) -/
def siblingTitlesInjective (docs : List OutlineDocument)
    (tr : String → String) : Prop :=
  ∀ d ∈ docs, ∀ e ∈ docs, d.id ≠ e.id →
    builtParent docs d.id = builtParent docs e.id →
    tr d.title ≠ tr e.title

/-- The clean-run invariant of the folder resolver: the cache, the
ledger, and the destination collection stay in lock-step — one
destination folder per resolved source ancestor, carrying the
translated title of its source node and parented onto the folder of the
source node's parent. -/
structure RInv (docs : List OutlineDocument) (tr : String → String)
    (targetCol : String) (st : ResolverState) : Prop where
  keys_nodup : (st.folderMappings.map (fun kv => kv.1)).Nodup
  ledger_keys : st.translations.map (fun kv => kv.1) =
    st.folderMappings.map (fun kv => kv.1)
  entry_src : ∀ kv ∈ st.folderMappings, kv.2.sourceId = kv.1
  counts : st.targetDocs.length = st.folderMappings.length
  folder_of : ∀ kv ∈ st.folderMappings, ∃ f ∈ st.targetDocs,
    f.id = kv.2.targetId ∧
    (∃ d, nodeDoc docs kv.1 = some d ∧ f.title = tr d.title) ∧
    f.parentDocumentId = optTarget st (builtParent docs kv.1)
  target_fresh : ∀ kv ∈ st.folderMappings, ∃ n, n < st.nextId ∧
    kv.2.targetId = freshId n
  targets_nodup : (st.folderMappings.map (fun kv => kv.2.targetId)).Nodup
  folder_covered : ∀ f ∈ st.targetDocs, ∃ kv ∈ st.folderMappings,
    kv.2.targetId = f.id
  target_ids_nodup : (st.targetDocs.map (fun f => f.id)).Nodup
  parent_mapped : ∀ kv ∈ st.folderMappings,
    ∀ p, builtParent docs kv.1 = some p →
    p ∈ st.folderMappings.map (fun kv2 => kv2.1)

/-- The folder document the create branch of the resolver step
materialises (the request fields as built in documentHierarchy.ts lines
186-213, with the store's fresh id). -/
def createdFolder (tr trBody : String → String) (targetCol : String)
    (st : ResolverState) (cur : Option String) (sd : OutlineDocument) :
    OutlineDocument :=
  { id := freshId st.nextId
    title := tr sd.title
    text := if sd.text ≠ "" ∧ (jsTrim sd.text).length > 0 then trBody sd.text
      else ""
    emoji := jsTruthyStr sd.emoji
    collectionId := targetCol
    parentDocumentId := jsTruthyStr cur
    updatedAt := st.now }

/-- The state after the create branch of the resolver step: folder
created, ledger entry recorded, mapping cached. -/
def createdState (tr trBody : String → String) (targetCol : String)
    (st : ResolverState) (cur : Option String) (sd : OutlineDocument) :
    ResolverState :=
  let f := createdFolder tr trBody targetCol st cur sd
  let m : FolderMapping :=
    { sourceId := sd.id, targetId := freshId st.nextId,
      sourceName := sd.title, targetName := tr sd.title }
  { folderMappings := (sd.id, m) :: st.folderMappings
    translations := (sd.id, mkLedgerEntry sd f st.now) :: st.translations
    targetDocs := st.targetDocs ++ [f]
    nextId := st.nextId + 1
    now := st.now }

/-- A rank certificate for `collideDocs`. -/
def collideRank : String → Nat :=
  fun s =>
    if s = "R" then 0 else if s = "AA" then 1 else if s = "CC" then 1 else 2

/-! # Theorems -/

/-! ## Association-list helpers -/

theorem lookupA_insert_self {α : Type} (l : List (String × α)) (k : String)
    (v : α) : lookupA (insertA l k v) k = some v := by
  simp [lookupA, insertA, List.find?]

theorem lookupA_insert_ne {α : Type} (l : List (String × α)) (k k2 : String)
    (v : α) (h : k2 ≠ k) : lookupA (insertA l k v) k2 = lookupA l k2 := by
  have hk : (k == k2) = false := by
    simp [beq_eq_false_iff_ne]
    exact fun he => h he.symm
  simp [lookupA, insertA, List.find?, hk]

theorem lookupA_removeA_self {α : Type} (l : List (String × α))
    (k : String) : lookupA (removeA l k) k = none := by
  induction l with
  | nil => rfl
  | cons a l ih =>
      by_cases h : a.1 = k
      · rw [removeA] at ih ⊢
        simpa [List.filter_cons, h] using ih
      · have hk : (a.1 == k) = false := by simp [beq_eq_false_iff_ne, h]
        rw [removeA] at ih ⊢
        simp only [List.filter_cons, hk, Bool.not_false, if_pos, lookupA,
          List.find?, Bool.false_eq_true]
        simpa [lookupA] using ih

/-! ## C3: update detection -/

/-- C3: `needsUpdate(doc)` is `false` for every document with no ledger
entry; with an entry it is `true` exactly when the document's
last-modified timestamp is strictly greater than the entry's
translation timestamp, hence `false` when it is less than or equal. -/
theorem needsUpdate_spec (translations : List (String × TranslatedDocument))
    (document : OutlineDocument) :
    (getTranslatedDocument translations document.id = none →
      needsUpdate translations document = false) ∧
    (∀ entry, getTranslatedDocument translations document.id = some entry →
      ((needsUpdate translations document = true ↔
        entry.translatedAt < document.updatedAt) ∧
       (document.updatedAt ≤ entry.translatedAt →
        needsUpdate translations document = false))) := by
  constructor
  · intro h
    simp [needsUpdate, h]
  · intro entry h
    constructor
    · simp [needsUpdate, h, gt_iff_lt]
    · intro hle
      simp [needsUpdate, h, gt_iff_lt]
      exact hle

theorem needsUpdate_spec_witness :
    (getTranslatedDocument
        [("d", mkLedgerEntry (mkDoc "d" "T" none) (mkDoc "e" "T" none) 5)]
        (mkDoc "d" "T" none).id =
      some (mkLedgerEntry (mkDoc "d" "T" none) (mkDoc "e" "T" none) 5)) ∧
    needsUpdate
      [("d", mkLedgerEntry (mkDoc "d" "T" none) (mkDoc "e" "T" none) 5)]
      { mkDoc "d" "T" none with updatedAt := 9 } = true := by
  refine ⟨by rfl, ?_⟩
  exact ((needsUpdate_spec
    [("d", mkLedgerEntry (mkDoc "d" "T" none) (mkDoc "e" "T" none) 5)]
    { mkDoc "d" "T" none with updatedAt := 9 }).2
    (mkLedgerEntry (mkDoc "d" "T" none) (mkDoc "e" "T" none) 5)
    (by rfl)).1.mpr (by decide)

/-! ## C9: a zero spending ceiling disables the gates -/

/-- C9: a configured maximum spending ceiling of exactly `0` is treated
as the absence of a limit: both `confirmCostWithUser` and
`checkSpendingLimit` pass for every estimated cost, because the ceiling
is tested for truthiness before being compared. -/
theorem zero_ceiling_means_unlimited (estimate : CostEstimate) (cost : ℚ) :
    confirmCostWithUser estimate (some 0) = true ∧
    checkSpendingLimit cost (some 0) = true := by
  constructor
  · simp [confirmCostWithUser]
  · simp [checkSpendingLimit]

/-! ## C8: ledger persistence contract -/

/-- C8: constructing the tracker over a missing backing file yields an
empty ledger; every successful mutating call leaves stable storage
holding exactly the in-memory record (write-through before returning,
with the added entry present, resp. the removed entry absent); and a
failing persistence write surfaces as a propagated error from both
`addTranslation` and `removeTranslation`, so an add never returns
successfully without the record being written. -/
theorem ledger_persistence_spec :
    (mkTracker none).mem = [] ∧
    (∀ (writeOk : Bool) (w : TrackerWorld) (o t : OutlineDocument)
        (now : Int) (w1 : TrackerWorld),
      addTranslation writeOk w o t now = Except.ok w1 →
      w1.disk = some w1.mem ∧
      lookupA w1.mem o.id = some (mkLedgerEntry o t now)) ∧
    (∀ (w : TrackerWorld) (o t : OutlineDocument) (now : Int),
      ∃ e, addTranslation false w o t now = Except.error e) ∧
    (∀ (w : TrackerWorld) (documentId : String) (w1 : TrackerWorld),
      removeTranslation true w documentId = Except.ok w1 →
      documentId ∈ w.mem.map (fun kv => kv.1) →
      w1.disk = some w1.mem ∧ lookupA w1.mem documentId = none) ∧
    (∀ (w : TrackerWorld) (documentId : String),
      documentId ∈ w.mem.map (fun kv => kv.1) →
      ∃ e, removeTranslation false w documentId = Except.error e) := by
  refine ⟨rfl, ?_, ?_, ?_, ?_⟩
  · intro writeOk w o t now w1 h
    cases writeOk with
    | false => simp [addTranslation, saveTranslations] at h
    | true =>
        simp only [addTranslation, saveTranslations, if_pos,
          Except.ok.injEq] at h
        subst h
        exact ⟨rfl, lookupA_insert_self _ _ _⟩
  · intro w o t now
    exact ⟨_, rfl⟩
  · intro w documentId w1 h hmem
    rw [removeTranslation, if_pos hmem] at h
    simp only [saveTranslations, if_pos, Except.ok.injEq] at h
    subst h
    exact ⟨rfl, lookupA_removeA_self _ _⟩
  · intro w documentId hmem
    rw [removeTranslation, if_pos hmem]
    exact ⟨_, rfl⟩

theorem ledger_persistence_spec_witness :
    (addTranslation true (mkTracker none) (mkDoc "d" "T" none)
        (mkDoc "e" "U" none) 3 =
      Except.ok
        { mem := [("d", mkLedgerEntry (mkDoc "d" "T" none)
            (mkDoc "e" "U" none) 3)]
          disk := some [("d", mkLedgerEntry (mkDoc "d" "T" none)
            (mkDoc "e" "U" none) 3)] }) ∧
    ({ mem := [("d", mkLedgerEntry (mkDoc "d" "T" none)
        (mkDoc "e" "U" none) 3)]
       disk := some [("d", mkLedgerEntry (mkDoc "d" "T" none)
        (mkDoc "e" "U" none) 3)] : TrackerWorld }.disk =
      some [("d", mkLedgerEntry (mkDoc "d" "T" none)
        (mkDoc "e" "U" none) 3)] ∧
     lookupA [("d", mkLedgerEntry (mkDoc "d" "T" none)
        (mkDoc "e" "U" none) 3)] (mkDoc "d" "T" none).id =
      some (mkLedgerEntry (mkDoc "d" "T" none) (mkDoc "e" "U" none) 3)) := by
  refine ⟨by rfl, ?_⟩
  exact ledger_persistence_spec.2.1 true (mkTracker none)
    (mkDoc "d" "T" none) (mkDoc "e" "U" none) 3 _ (by rfl)

/-! ## Hierarchy lemmas -/

theorem knownId_iff_mem (docs : List OutlineDocument) (i : String) :
    knownId docs i = true ↔ i ∈ docs.map (fun d => d.id) := by
  rw [knownId, List.any_eq_true]
  simp only [List.mem_map, beq_iff_eq]

theorem builtParent_some (docs : List OutlineDocument) (i p : String)
    (h : builtParent docs i = some p) :
    declParentRel docs i p ∧ knownId docs i = true ∧
      knownId docs p = true := by
  rw [builtParent] at h
  cases hd : (docs.filter
      (fun d => d.id == i && parentResolvable docs d)).getLast? with
  | none => rw [hd] at h; exact Option.noConfusion h
  | some d =>
      rw [hd] at h
      have h2 : d.parentDocumentId = some p := h
      have hdmem : d ∈ docs.filter
          (fun d => d.id == i && parentResolvable docs d) :=
        List.mem_of_mem_getLast? hd
      have hprops := List.mem_filter.mp hdmem
      have hid : d.id = i := by
        have := hprops.2
        simp only [Bool.and_eq_true, beq_iff_eq] at this
        exact this.1
      have hres : parentResolvable docs d = true := by
        have := hprops.2
        simp only [Bool.and_eq_true] at this
        exact this.2
      have hknownp : knownId docs p = true := by
        rw [parentResolvable, h2] at hres
        exact hres
      refine ⟨⟨d, hprops.1, hid, h2⟩, ?_, hknownp⟩
      rw [knownId, List.any_eq_true]
      exact ⟨d, hprops.1, by simp [hid]⟩

theorem builtAcyclic_of_declAcyclic (docs : List OutlineDocument)
    (h : DeclAcyclic docs) : BuiltAcyclic docs := by
  intro i hi
  exact h i (Relation.TransGen.mono
    (fun a b hab => (builtParent_some docs a b hab).1) hi)

theorem declAcyclic_of_rank (docs : List OutlineDocument)
    (rk : String → Nat) (h : rankOk docs rk = true) : DeclAcyclic docs := by
  have hstep : ∀ a b, declParentRel docs a b → rk b < rk a := by
    rintro a b ⟨d, hd, rfl, hp⟩
    have := List.all_eq_true.mp h d hd
    rw [hp] at this
    exact of_decide_eq_true this
  have htg : ∀ a b, Relation.TransGen (declParentRel docs) a b →
      rk b < rk a := by
    intro a b htg
    induction htg with
    | single h1 => exact hstep _ _ h1
    | tail _ h2 ih => exact lt_trans (hstep _ _ h2) ih
  intro i hi
  exact lt_irrefl _ (htg i i hi)

theorem iterParent_none (docs : List OutlineDocument) (n : Nat) :
    iterParent docs n none = none := by
  rw [iterParent]
  exact Function.iterate_fixed rfl n

theorem iterParent_succ (docs : List OutlineDocument) (n : Nat)
    (c : Option String) :
    iterParent docs (n + 1) c = iterParent docs n (stepParent docs c) := by
  rw [iterParent, iterParent]
  exact Function.iterate_succ_apply (stepParent docs) n c

theorem iterParent_succ2 (docs : List OutlineDocument) (n : Nat)
    (c : Option String) :
    iterParent docs (n + 1) c = stepParent docs (iterParent docs n c) := by
  rw [iterParent, iterParent]
  exact Function.iterate_succ_apply' (stepParent docs) n c

theorem iterParent_add (docs : List OutlineDocument) (m n : Nat)
    (c : Option String) :
    iterParent docs (m + n) c = iterParent docs m (iterParent docs n c) := by
  rw [iterParent, iterParent, iterParent]
  exact Function.iterate_add_apply (stepParent docs) m n c

theorem transGen_of_iterParent (docs : List OutlineDocument) :
    ∀ (m : Nat) (x y : String),
    iterParent docs (m + 1) (some x) = some y →
    Relation.TransGen (builtParentRel docs) x y := by
  intro m
  induction m with
  | zero =>
      intro x y h
      rw [iterParent_succ2] at h
      exact Relation.TransGen.single h
  | succ n ih =>
      intro x y h
      rw [iterParent_succ2] at h
      cases hz : iterParent docs (n + 1) (some x) with
      | none => rw [hz] at h; exact absurd h (by simp [stepParent])
      | some z =>
          rw [hz] at h
          exact Relation.TransGen.tail (ih x z hz) h

theorem known_of_iterParent (docs : List OutlineDocument) (m : Nat)
    (c : Option String) (y : String)
    (h : iterParent docs (m + 1) c = some y) : knownId docs y = true := by
  rw [iterParent_succ2] at h
  cases hz : iterParent docs m c with
  | none => rw [hz] at h; exact absurd h (by simp [stepParent])
  | some z =>
      rw [hz] at h
      exact (builtParent_some docs z y h).2.2

theorem iterParent_reaches_none (docs : List OutlineDocument)
    (hacy : BuiltAcyclic docs) (c : Option String) :
    ∃ k, k ≤ docs.length + 1 ∧ iterParent docs k c = none := by
  by_contra hcon
  push_neg at hcon
  have hsome : ∀ k : Fin (docs.length + 1),
      (iterParent docs (k.1 + 1) c).isSome = true := by
    intro k
    have hne := hcon (k.1 + 1) (by omega)
    cases hi : iterParent docs (k.1 + 1) c with
    | none => exact absurd hi hne
    | some y => rfl
  let g : Fin (docs.length + 1) → String :=
    fun k => (iterParent docs (k.1 + 1) c).get (hsome k)
  have hg : ∀ k : Fin (docs.length + 1),
      iterParent docs (k.1 + 1) c = some (g k) := by
    intro k
    exact (Option.some_get (hsome k)).symm
  have hmemg : ∀ k : Fin (docs.length + 1),
      g k ∈ (docs.map (fun d => d.id)).toFinset := by
    intro k
    rw [List.mem_toFinset, ← knownId_iff_mem]
    exact known_of_iterParent docs k.1 c (g k) (hg k)
  have hinj : Function.Injective g := by
    intro a b hab
    by_contra hne
    have hlt : a.1 < b.1 ∨ b.1 < a.1 := by
      rcases Nat.lt_trichotomy a.1 b.1 with h | h | h
      · exact Or.inl h
      · exact absurd (Fin.ext h) hne
      · exact Or.inr h
    have key : ∀ u v : Fin (docs.length + 1), u.1 < v.1 → g u = g v → False := by
      intro u v huv he
      have hsplit : v.1 + 1 = (v.1 - u.1) + (u.1 + 1) := by omega
      have : iterParent docs (v.1 + 1) c =
          iterParent docs (v.1 - u.1) (some (g u)) := by
        rw [hsplit, iterParent_add, hg u]
      rw [hg v, ← he] at this
      obtain ⟨m, hm⟩ : ∃ m, v.1 - u.1 = m + 1 := ⟨v.1 - u.1 - 1, by omega⟩
      rw [hm] at this
      exact hacy (g u) (transGen_of_iterParent docs m (g u) (g u) this.symm)
    rcases hlt with h | h
    · exact key a b h hab
    · exact key b a h hab.symm
  have hcard : docs.length + 1 ≤ (docs.map (fun d => d.id)).toFinset.card := by
    have h1 : Fintype.card (Fin (docs.length + 1)) ≤
        Fintype.card {x // x ∈ (docs.map (fun d => d.id)).toFinset} := by
      apply Fintype.card_le_of_injective (fun k => ⟨g k, hmemg k⟩)
      intro a b hab
      exact hinj (congrArg Subtype.val hab)
    rw [Fintype.card_fin, Fintype.card_coe] at h1
    exact h1
  have hle : (docs.map (fun d => d.id)).toFinset.card ≤ docs.length := by
    calc (docs.map (fun d => d.id)).toFinset.card
        ≤ (docs.map (fun d => d.id)).length := (docs.map (fun d => d.id)).toFinset_card_le
      _ = docs.length := List.length_map docs (fun d => d.id)
  omega

theorem pathAux_append (docs : List OutlineDocument) :
    ∀ (fuel : Nat) (c : Option String) (acc : List String),
    pathAux docs fuel c acc = pathAux docs fuel c [] ++ acc := by
  intro fuel
  induction fuel with
  | zero =>
      intro c acc
      cases c <;> simp [pathAux]
  | succ n ih =>
      intro c acc
      cases c with
      | none => simp [pathAux]
      | some i =>
          show pathAux docs n (builtParent docs i) (i :: acc) =
            pathAux docs n (builtParent docs i) [i] ++ acc
          rw [ih (builtParent docs i) (i :: acc),
            ih (builtParent docs i) [i]]
          simp

theorem pathAux_getLast (docs : List OutlineDocument) (fuel : Nat)
    (i : String) :
    (pathAux docs (fuel + 1) (some i) []).getLast? = some i := by
  show (pathAux docs fuel (builtParent docs i) [i]).getLast? = some i
  rw [pathAux_append]
  rw [List.getLast?_concat]

theorem pathAux_ne_nil (docs : List OutlineDocument) (fuel : Nat)
    (i : String) : pathAux docs (fuel + 1) (some i) [] ≠ [] := by
  intro h
  have := pathAux_getLast docs fuel i
  rw [h] at this
  exact Option.noConfusion this

theorem pathAux_mem_ancestor (docs : List OutlineDocument) :
    ∀ (fuel : Nat) (i x : String),
    x ∈ pathAux docs fuel (some i) [] →
    x = i ∨ Relation.TransGen (builtParentRel docs) i x := by
  intro fuel
  induction fuel with
  | zero =>
      intro i x hx
      simp [pathAux] at hx
  | succ n ih =>
      intro i x hx
      have hx2 : x ∈ pathAux docs n (builtParent docs i) [i] := hx
      cases hbp : builtParent docs i with
      | none =>
          rw [hbp] at hx2
          cases n <;> simp [pathAux] at hx2 <;> exact Or.inl hx2
      | some p =>
          rw [hbp, pathAux_append] at hx2
          rcases List.mem_append.mp hx2 with hx3 | hx3
          · rcases ih p x hx3 with rfl | h
            · exact Or.inr (Relation.TransGen.single hbp)
            · exact Or.inr (Relation.TransGen.head hbp h)
          · simp at hx3
            exact Or.inl hx3

theorem pathAux_dropLast_strict (docs : List OutlineDocument) :
    ∀ (fuel : Nat) (i x : String),
    x ∈ (pathAux docs fuel (some i) []).dropLast →
    Relation.TransGen (builtParentRel docs) i x := by
  intro fuel
  induction fuel with
  | zero =>
      intro i x hx
      simp [pathAux] at hx
  | succ n ih =>
      intro i x hx
      have hx2 : x ∈ (pathAux docs n (builtParent docs i) [i]).dropLast := hx
      cases hbp : builtParent docs i with
      | none =>
          rw [hbp] at hx2
          cases n <;> simp [pathAux] at hx2
      | some p =>
          rw [hbp, pathAux_append, List.dropLast_concat] at hx2
          rcases pathAux_mem_ancestor docs n p x hx2 with rfl | h
          · exact Relation.TransGen.single hbp
          · exact Relation.TransGen.head hbp h

theorem pathAux_mem_known (docs : List OutlineDocument) :
    ∀ (fuel : Nat) (i x : String), knownId docs i = true →
    x ∈ pathAux docs fuel (some i) [] → knownId docs x = true := by
  intro fuel
  induction fuel with
  | zero =>
      intro i x _ hx
      simp [pathAux] at hx
  | succ n ih =>
      intro i x hk hx
      have hx2 : x ∈ pathAux docs n (builtParent docs i) [i] := hx
      cases hbp : builtParent docs i with
      | none =>
          rw [hbp] at hx2
          cases n <;> simp [pathAux] at hx2 <;> exact hx2 ▸ hk
      | some p =>
          rw [hbp, pathAux_append] at hx2
          rcases List.mem_append.mp hx2 with hx3 | hx3
          · exact ih p x (builtParent_some docs i p hbp).2.2 hx3
          · simp at hx3
            exact hx3 ▸ hk

theorem pathAux_spec (docs : List OutlineDocument) :
    ∀ (fuel : Nat) (i : String),
    (∃ k, k ≤ fuel ∧ iterParent docs k (some i) = none) →
    (∃ r rest, pathAux docs fuel (some i) [] = r :: rest ∧
        builtParent docs r = none) ∧
    List.Chain' (fun a b => builtParent docs b = some a)
      (pathAux docs fuel (some i) []) := by
  intro fuel
  induction fuel with
  | zero =>
      intro i ⟨k, hk, hnone⟩
      interval_cases k
      exact absurd hnone (by simp [iterParent])
  | succ n ih =>
      intro i ⟨k, hk, hnone⟩
      obtain ⟨k2, rfl⟩ : ∃ k2, k = k2 + 1 := by
        cases k with
        | zero => exact absurd hnone (by simp [iterParent])
        | succ k2 => exact ⟨k2, rfl⟩
      rw [iterParent_succ] at hnone
      have hstep : stepParent docs (some i) = builtParent docs i := rfl
      rw [hstep] at hnone
      show (∃ r rest, pathAux docs n (builtParent docs i) [i] = r :: rest ∧
          builtParent docs r = none) ∧
        List.Chain' (fun a b => builtParent docs b = some a)
          (pathAux docs n (builtParent docs i) [i])
      cases hbp : builtParent docs i with
      | none =>
          cases n <;> simp [pathAux] <;> exact hbp
      | some p =>
          rw [hbp] at hnone
          have hterm : ∃ k3, k3 ≤ n ∧ iterParent docs k3 (some p) = none := by
            refine ⟨k2, by omega, hnone⟩
          obtain ⟨m, rfl⟩ : ∃ m, n = m + 1 := by
            cases n with
            | zero =>
                obtain ⟨k3, hk3, hn3⟩ := hterm
                interval_cases k3
                exact absurd hn3 (by simp [iterParent])
            | succ m => exact ⟨m, rfl⟩
          obtain ⟨⟨r, rest, hrr, hroot⟩, hchain⟩ := ih p hterm
          rw [pathAux_append]
          constructor
          · refine ⟨r, rest ++ [i], ?_, hroot⟩
            rw [hrr]
            simp
          · rw [List.chain'_append]
            refine ⟨hchain, List.chain'_singleton i, ?_⟩
            intro x hx y hy
            rw [pathAux_getLast docs m p] at hx
            simp at hx hy
            rw [← hy, ← hx]
            exact hbp

/-! ## C2: cycles in the built hierarchy -/

/-- C2 (counterexample): the claim asserts that for arbitrary input —
including mutually referential parent ids — no node of the built
hierarchy is its own transitive ancestor.  For the concrete input
`cyclicDocs`, in which `"A"` and `"B"` declare each other as parents
and both ids are present in the flat input set, pass 2 links the two
nodes into a cycle: `"A"` is its own transitive ancestor, and the
`while (current)` walk of `getDocumentPath` never reaches a root. -/
theorem buildHierarchy_cycle_counterexample :
    Relation.TransGen (builtParentRel cyclicDocs) "A" "A" := by
  have h1 : builtParentRel cyclicDocs "A" "B" := by
    show builtParent cyclicDocs "A" = some "B"
    rfl
  have h2 : builtParentRel cyclicDocs "B" "A" := by
    show builtParent cyclicDocs "B" = some "A"
    rfl
  exact Relation.TransGen.tail (Relation.TransGen.single h1) h2

/-- C2 (amended): the forest built by `buildHierarchy` contains no
cycles *provided the declared parent pointers of the input are
themselves acyclic* (pass 2 never creates an edge beyond a declared
parent id, but it does faithfully reproduce declared cycles, see the
counterexample).  Under that hypothesis no node is its own transitive
ancestor, and the upward walk of `getDocumentPath` reaches a node with
no parent within `docs.length + 1` steps from every start, so the walk
terminates. -/
theorem buildHierarchy_acyclic (docs : List OutlineDocument)
    (hdecl : DeclAcyclic docs) :
    (∀ i, ¬ Relation.TransGen (builtParentRel docs) i i) ∧
    (∀ c, ∃ k, k ≤ docs.length + 1 ∧ iterParent docs k c = none) := by
  have hb := builtAcyclic_of_declAcyclic docs hdecl
  exact ⟨hb, iterParent_reaches_none docs hb⟩

theorem buildHierarchy_acyclic_witness :
    DeclAcyclic chainDocs ∧
    ((∀ i, ¬ Relation.TransGen (builtParentRel chainDocs) i i) ∧
     (∀ c, ∃ k, k ≤ chainDocs.length + 1 ∧ iterParent chainDocs k c = none)) := by
  have hd : DeclAcyclic chainDocs :=
    declAcyclic_of_rank chainDocs chainRank (by decide)
  exact ⟨hd, buildHierarchy_acyclic chainDocs hd⟩

/-! ## C4: the path query -/

/-- C4 (counterexample): the claim promises a root-to-node sequence for
*every* identifier known to the hierarchy.  For the mutually
referential input `cyclicDocsXY` the id `"X"` is known, yet at the fuel
bound sufficient for every acyclic input the walk produces
`["X", "Y", "X"]`, whose first element still has a parent in the forest
(`"X"` points at `"Y"`): the result is not a sequence from a root, and
in the source the walk simply never terminates on this input. -/
theorem getDocumentPath_cycle_counterexample :
    getDocumentPath cyclicDocsXY (cyclicDocsXY.length + 1) "X" =
      ["X", "Y", "X"] ∧
    builtParent cyclicDocsXY "X" = some "Y" := by
  exact ⟨rfl, rfl⟩

/-- C4 (amended): provided the declared parent pointers are acyclic,
`getDocumentPath` (at any fuel at least `docs.length + 1`, enough for
the walk to terminate) behaves as claimed: for an unknown identifier it
returns the empty sequence; for a known identifier it returns a
sequence ending at the named node, starting at a node with no parent in
the forest, with consecutive elements linked by parent back-references;
and a document whose declared parent id is absent from the input set is
classified as a root, its path a single-element sequence (stated for
inputs with distinct ids, so that the document names its node
uniquely). -/
theorem getDocumentPath_spec (docs : List OutlineDocument) (fuel : Nat)
    (hdecl : DeclAcyclic docs) (hfuel : docs.length + 1 ≤ fuel) :
    (∀ i, knownId docs i = false → getDocumentPath docs fuel i = []) ∧
    (∀ i, knownId docs i = true →
      (getDocumentPath docs fuel i).getLast? = some i ∧
      (∃ r rest, getDocumentPath docs fuel i = r :: rest ∧
        builtParent docs r = none) ∧
      List.Chain' (fun a b => builtParent docs b = some a)
        (getDocumentPath docs fuel i)) ∧
    (∀ d ∈ docs, (docs.map (fun e => e.id)).Nodup →
      ∀ p, d.parentDocumentId = some p → knownId docs p = false →
      getDocumentPath docs fuel d.id = [d.id]) := by
  obtain ⟨f, rfl⟩ : ∃ f, fuel = f + 1 := ⟨fuel - 1, by omega⟩
  refine ⟨?_, ?_, ?_⟩
  · intro i hi
    rw [getDocumentPath, if_neg (by simp [hi])]
    simp [pathAux]
  · intro i hi
    have hpath : getDocumentPath docs (f + 1) i =
        pathAux docs (f + 1) (some i) [] := by
      rw [getDocumentPath, if_pos hi]
    obtain ⟨k, hk, hnone⟩ := iterParent_reaches_none docs
      (builtAcyclic_of_declAcyclic docs hdecl) (some i)
    have hspec := pathAux_spec docs (f + 1) i ⟨k, by omega, hnone⟩
    rw [hpath]
    exact ⟨pathAux_getLast docs f i, hspec.1, hspec.2⟩
  · intro d hd hnodup p hp hkp
    have hfilter : docs.filter
        (fun e => e.id == d.id && parentResolvable docs e) = [] := by
      rw [List.filter_eq_nil_iff]
      intro e he hcond
      simp only [Bool.and_eq_true, beq_iff_eq] at hcond
      have hed : e = d :=
        List.inj_on_of_nodup_map hnodup he hd hcond.1
      have h3 : knownId docs p = true := by
        have h4 := hcond.2
        rw [hed, parentResolvable, hp] at h4
        exact h4
      rw [hkp] at h3
      exact Bool.noConfusion h3
    have hbp : builtParent docs d.id = none := by
      rw [builtParent, hfilter]
      rfl
    have hkd : knownId docs d.id = true := by
      rw [knownId, List.any_eq_true]
      exact ⟨d, hd, by simp⟩
    rw [getDocumentPath, if_pos hkd]
    show pathAux docs f (builtParent docs d.id) [d.id] = [d.id]
    rw [hbp]
    cases f <;> simp [pathAux]

theorem getDocumentPath_spec_witness :
    DeclAcyclic chainDocs ∧ chainDocs.length + 1 ≤ 4 ∧
    (getDocumentPath chainDocs 4 "L").getLast? = some "L" ∧
    getDocumentPath chainDocs 4 "Z" = [] ∧
    DeclAcyclic danglingDocs ∧
    getDocumentPath danglingDocs 2 "D" = ["D"] := by
  have hd : DeclAcyclic chainDocs :=
    declAcyclic_of_rank chainDocs chainRank (by decide)
  have h := getDocumentPath_spec chainDocs 4 hd (by decide)
  have hd2 : DeclAcyclic danglingDocs :=
    declAcyclic_of_rank danglingDocs danglingRank (by decide)
  have h2 := getDocumentPath_spec danglingDocs 2 hd2 (by decide)
  refine ⟨hd, by decide, (h.2.1 "L" (by decide)).1, h.1 "Z" (by decide),
    hd2, ?_⟩
  exact h2.2.2 (mkDoc "D" "Doc" (some "GONE")) (by simp [danglingDocs])
    (by decide) "GONE" rfl (by decide)

/-! ## C7: destination-search fallback -/

/-- C7: when neither the in-memory mapping nor the ledger resolves an
ancestor, adoption of a destination document requires exact equality of
both the title (with the translated name) and the parent id (with the
current parent) — `findFolderByName` returns only such documents, and
on a hit the step adopts the found folder without creating anything;
when the search's transport call fails, the failure is treated as "not
found": the step behaves exactly as a search over an empty collection
and proceeds to create the folder instead of aborting the walk. -/
theorem destinationSearch_fallback_spec :
    (∀ (documents : List OutlineDocument) (folderName : String)
        (parentId : Option String) (d : OutlineDocument),
      findFolderByName (Except.ok documents) folderName parentId = some d →
      d ∈ documents ∧ d.title = folderName ∧ d.parentDocumentId = parentId) ∧
    (∀ (e : String) (folderName : String) (parentId : Option String),
      findFolderByName (Except.error e) folderName parentId = none) ∧
    (∀ (tr trBody : String → String) (targetCol e : String)
        (st : ResolverState) (cur : Option String) (sd : OutlineDocument),
      lookupA st.folderMappings sd.id = none →
      getTranslatedDocument st.translations sd.id = none →
      resolveAncestorStepFetch tr trBody targetCol (Except.error e) st cur sd =
        resolveAncestorStepFetch tr trBody targetCol (Except.ok []) st cur sd ∧
      (resolveAncestorStepFetch tr trBody targetCol (Except.error e) st cur
          sd).1.targetDocs.length = st.targetDocs.length + 1 ∧
      (resolveAncestorStepFetch tr trBody targetCol (Except.error e) st cur
          sd).2 = some (freshId st.nextId)) ∧
    (∀ (tr trBody : String → String) (targetCol : String)
        (fetched : List OutlineDocument) (st : ResolverState)
        (cur : Option String) (sd f : OutlineDocument),
      lookupA st.folderMappings sd.id = none →
      getTranslatedDocument st.translations sd.id = none →
      findFolderByName (Except.ok fetched) (tr sd.title) cur = some f →
      (resolveAncestorStepFetch tr trBody targetCol (Except.ok fetched) st cur
          sd).1.targetDocs = st.targetDocs ∧
      (resolveAncestorStepFetch tr trBody targetCol (Except.ok fetched) st cur
          sd).2 = some f.id) := by
  refine ⟨?_, ?_, ?_, ?_⟩
  · intro documents folderName parentId d h
    rw [findFolderByName] at h
    have hmem := List.mem_of_find?_eq_some h
    have hpred := List.find?_some h
    simp only [Bool.and_eq_true, beq_iff_eq] at hpred
    exact ⟨hmem, hpred.1, hpred.2⟩
  · intro e folderName parentId
    rfl
  · intro tr trBody targetCol e st cur sd hm hl
    have hferr : findFolderByName (Except.error e) (tr sd.title) cur =
      none := rfl
    have hfok : findFolderByName (Except.ok ([] : List OutlineDocument))
      (tr sd.title) cur = none := rfl
    refine ⟨?_, ?_, ?_⟩
    · simp only [resolveAncestorStepFetch, hm, hl, hferr, hfok]
    · simp [resolveAncestorStepFetch, hm, hl, hferr, createDocument]
    · simp [resolveAncestorStepFetch, hm, hl, hferr, createDocument]
  · intro tr trBody targetCol fetched st cur sd f hm hl hf
    simp [resolveAncestorStepFetch, hm, hl, hf]

theorem destinationSearch_fallback_witness :
    lookupA (initialResolverState 0).folderMappings
      (mkDoc "F" "Folder" none).id = none ∧
    getTranslatedDocument (initialResolverState 0).translations
      (mkDoc "F" "Folder" none).id = none ∧
    (resolveAncestorStepFetch trId trId "tgt" (Except.error "boom")
        (initialResolverState 0) none (mkDoc "F" "Folder" none) =
      resolveAncestorStepFetch trId trId "tgt" (Except.ok [])
        (initialResolverState 0) none (mkDoc "F" "Folder" none) ∧
     (resolveAncestorStepFetch trId trId "tgt" (Except.error "boom")
        (initialResolverState 0) none
        (mkDoc "F" "Folder" none)).1.targetDocs.length =
      (initialResolverState 0).targetDocs.length + 1 ∧
     (resolveAncestorStepFetch trId trId "tgt" (Except.error "boom")
        (initialResolverState 0) none (mkDoc "F" "Folder" none)).2 =
      some (freshId (initialResolverState 0).nextId)) := by
  refine ⟨rfl, rfl, ?_⟩
  exact destinationSearch_fallback_spec.2.2.1 trId trId "tgt" "boom"
    (initialResolverState 0) none (mkDoc "F" "Folder" none) rfl rfl

/-! ## C5: budget gate -/

/-- C5: with a configured (nonzero) spending ceiling, a batch whose
gate estimate strictly exceeds the ceiling makes the orchestrator
return a rejection before any document is processed — the state is
returned untouched, so no translate or create call has happened and no
counter moved; with the estimate at or below the ceiling, or with no
ceiling configured, execution proceeds to the per-document loop.  (A
ceiling configured as exactly `0` is treated as no ceiling at all; see
the truthiness theorem for that case.) -/
theorem budget_gate_spec (env : LoopEnv) (cfg : OrchestratorConfig)
    (docs documentsToProcess : List OutlineDocument) (st : ResolverState) :
    (∀ m, cfg.maxSpendingUsd = some m → m ≠ 0 →
      (estimateBatchCost
        (gateDocuments cfg documentsToProcess)).estimatedCostUsd > m →
      runBatch env cfg docs documentsToProcess st = BatchResult.rejected st) ∧
    ((cfg.maxSpendingUsd = none ∨
      (∃ m, cfg.maxSpendingUsd = some m ∧
        (estimateBatchCost
          (gateDocuments cfg documentsToProcess)).estimatedCostUsd ≤ m)) →
      runBatch env cfg docs documentsToProcess st =
        BatchResult.completed
          (runLoop env cfg docs documentsToProcess st
            { total := documentsToProcess.length, translated := 0,
              skipped := 0, errors := 0 } 0).1
          (runLoop env cfg docs documentsToProcess st
            { total := documentsToProcess.length, translated := 0,
              skipped := 0, errors := 0 } 0).2) := by
  constructor
  · intro m hm hm0 hgt
    rw [runBatch]
    have hconf : confirmCostWithUser
        (estimateBatchCost (gateDocuments cfg documentsToProcess))
        cfg.maxSpendingUsd = false := by
      rw [hm, confirmCostWithUser, if_pos ⟨hm0, hgt⟩]
    rw [hconf]
    rfl
  · intro hok
    rw [runBatch]
    have hconf : confirmCostWithUser
        (estimateBatchCost (gateDocuments cfg documentsToProcess))
        cfg.maxSpendingUsd = true := by
      rcases hok with hnone | ⟨m, hm, hle⟩
      · rw [hnone]; rfl
      · rw [hm, confirmCostWithUser, if_neg]
        rintro ⟨_, hgt⟩
        exact absurd hle (not_le.mpr hgt)
    have hcheck : checkSpendingLimit
        (estimateBatchCost
          (gateDocuments cfg documentsToProcess)).estimatedCostUsd
        cfg.maxSpendingUsd = true := by
      rcases hok with hnone | ⟨m, hm, hle⟩
      · rw [hnone]; rfl
      · rw [hm, checkSpendingLimit]
        by_cases h0 : m = 0
        · rw [if_pos h0]
        · rw [if_neg h0, if_neg (not_lt.mpr hle)]
    rw [hconf, hcheck]
    rfl

theorem budget_gate_spec_witness :
    ({ loopCfg with maxSpendingUsd := some (1 / 1000000) } :
        OrchestratorConfig).maxSpendingUsd = some (1 / 1000000) ∧
    (1 : ℚ) / 1000000 ≠ 0 ∧
    (estimateBatchCost (gateDocuments
        { loopCfg with maxSpendingUsd := some (1 / 1000000) }
        [loopLeaf])).estimatedCostUsd > 1 / 1000000 ∧
    runBatch (envFor loopDocs)
        { loopCfg with maxSpendingUsd := some (1 / 1000000) } loopDocs
        [loopLeaf] (initialResolverState 0) =
      BatchResult.rejected (initialResolverState 0) := by
  have hlen : loopLeaf.text.length = 9 := rfl
  have hlen2 : loopLeaf.title.length = 4 := rfl
  have hgt : (estimateBatchCost (gateDocuments
      { loopCfg with maxSpendingUsd := some (1 / 1000000) }
      [loopLeaf])).estimatedCostUsd > 1 / 1000000 := by
    norm_num [estimateBatchCost, gateDocuments, loopCfg, estimateDocumentCost,
      estimateInputTokens, estimateOutputTokens, hlen, hlen2,
      GPT4O_INPUT_COST_PER_TOKEN, GPT4O_OUTPUT_COST_PER_TOKEN]
  refine ⟨rfl, by norm_num, hgt, ?_⟩
  exact (budget_gate_spec (envFor loopDocs)
    { loopCfg with maxSpendingUsd := some (1 / 1000000) } loopDocs
    [loopLeaf] (initialResolverState 0)).1 (1 / 1000000) rfl
    (by norm_num) hgt

/-! ## C6: per-document failure isolation -/

theorem nodeDoc_id (docs : List OutlineDocument) (i : String)
    (d : OutlineDocument) (h : nodeDoc docs i = some d) : d.id = i := by
  rw [nodeDoc] at h
  have hmem := List.mem_of_mem_getLast? h
  have := (List.mem_filter.mp hmem).2
  simpa using this

theorem resolveStep_translations_other (tr trBody : String → String)
    (targetCol : String) (fetched : Except String (List OutlineDocument))
    (st : ResolverState) (cur : Option String) (sd : OutlineDocument)
    (X : String) (hX : X ≠ sd.id) :
    lookupA (resolveAncestorStepFetch tr trBody targetCol fetched st cur
      sd).1.translations X = lookupA st.translations X := by
  cases hm : lookupA st.folderMappings sd.id with
  | some m => simp [resolveAncestorStepFetch, hm]
  | none =>
    cases hl : getTranslatedDocument st.translations sd.id with
    | some t => simp [resolveAncestorStepFetch, hm, hl]
    | none =>
      cases hf : findFolderByName fetched (tr sd.title) cur with
      | some f => simp [resolveAncestorStepFetch, hm, hl, hf]
      | none =>
          simp only [resolveAncestorStepFetch, hm, hl, hf, createDocument]
          exact lookupA_insert_ne _ _ _ _ hX

theorem ensureFolderLoop_translations_other (tr trBody : String → String)
    (docs : List OutlineDocument) (targetCol : String) :
    ∀ (ids : List String) (st : ResolverState) (cur : Option String)
      (X : String), X ∉ ids →
    lookupA (ensureFolderLoop tr trBody docs targetCol ids st
      cur).1.translations X = lookupA st.translations X := by
  intro ids
  induction ids with
  | nil => intro st cur X _; rfl
  | cons i rest ih =>
      intro st cur X hX
      have hXi : X ≠ i := fun h => hX (h ▸ List.mem_cons_self i rest)
      have hXr : X ∉ rest := fun h => hX (List.mem_cons_of_mem i h)
      show lookupA (match nodeDoc docs i with
        | none => ensureFolderLoop tr trBody docs targetCol rest st cur
        | some sourceDoc =>
            let stepped := resolveAncestorStep tr trBody targetCol st cur
              sourceDoc
            ensureFolderLoop tr trBody docs targetCol rest stepped.1
              stepped.2).1.translations X = lookupA st.translations X
      cases hnd : nodeDoc docs i with
      | none => exact ih st cur X hXr
      | some sd =>
          rw [ih _ _ X hXr]
          have hid : sd.id = i := nodeDoc_id docs i sd hnd
          exact resolveStep_translations_other tr trBody targetCol _ st cur
            sd X (hid ▸ hXi)

theorem ensureFolderStructure_translations_self (tr trBody : String → String)
    (docs : List OutlineDocument) (targetCol : String) (st : ResolverState)
    (documentId : String) (hacy : BuiltAcyclic docs) :
    lookupA (ensureFolderStructure tr trBody docs targetCol st
      documentId).1.translations documentId =
    lookupA st.translations documentId := by
  rw [ensureFolderStructure]
  by_cases he : ((getDocumentPath docs (docs.length + 1)
      documentId).dropLast).isEmpty
  · simp only [he, if_pos]
  · simp only [he, Bool.false_eq_true, if_false]
    apply ensureFolderLoop_translations_other
    intro hmem
    rw [getDocumentPath] at hmem
    by_cases hk : knownId docs documentId
    · rw [if_pos hk] at hmem
      exact hacy documentId
        (pathAux_dropLast_strict docs (docs.length + 1) documentId
          documentId hmem)
    · rw [if_neg hk] at hmem
      cases docs.length + 1 with
      | zero => simp [pathAux] at hmem
      | succ n => simp [pathAux] at hmem

/-- C6: for every document in the processing loop that reaches its own
translation/creation stage, if the body translation or the creation
call fails, the error counter is incremented (translated and skipped
untouched), the ledger holds no entry for that document's identifier
beyond what it held before the iteration, and the loop goes on to
process the remaining documents.  (Declared-acyclic input keeps the
document out of its own ancestor path, so the folder-resolution stage
cannot have written a ledger entry under the document's own id.) -/
theorem perDocument_failure_isolation (env : LoopEnv)
    (cfg : OrchestratorConfig) (docs : List OutlineDocument)
    (st : ResolverState) (stats : TranslationStats) (i : Nat)
    (doc : OutlineDocument) (rest : List OutlineDocument)
    (fullDoc : OutlineDocument)
    (hacy : DeclAcyclic docs)
    (hdry : (cfg.dryRun && !(i == 0)) = false)
    (hskip : (isDocumentTranslated st.translations doc.id &&
      !(needsUpdate st.translations doc)) = false)
    (hfetch : env.getDocumentInfo doc.id = Except.ok fullDoc)
    (htext : (fullDoc.text == "" || (jsTrim fullDoc.text).length == 0) = false)
    (hfail : (∃ e, env.translateBody fullDoc.text = Except.error e) ∨
      (∃ c, env.translateBody fullDoc.text = Except.ok c ∧
        env.createOk (ensureFolderStructure env.trTitle env.trFolderBody
          docs cfg.targetCollectionId st doc.id).1.nextId = false)) :
    (processOne env cfg docs st stats i doc).2.errors = stats.errors + 1 ∧
    (processOne env cfg docs st stats i doc).2.translated =
      stats.translated ∧
    (processOne env cfg docs st stats i doc).2.skipped = stats.skipped ∧
    lookupA (processOne env cfg docs st stats i doc).1.translations doc.id =
      lookupA st.translations doc.id ∧
    runLoop env cfg docs (doc :: rest) st stats i =
      runLoop env cfg docs rest (processOne env cfg docs st stats i doc).1
        (processOne env cfg docs st stats i doc).2 (i + 1) := by
  have hledger := ensureFolderStructure_translations_self env.trTitle
    env.trFolderBody docs cfg.targetCollectionId st doc.id
    (builtAcyclic_of_declAcyclic docs hacy)
  have hres : processOne env cfg docs st stats i doc =
      ((ensureFolderStructure env.trTitle env.trFolderBody docs
        cfg.targetCollectionId st doc.id).1,
       { stats with errors := stats.errors + 1 }) := by
    rcases hfail with ⟨e, he⟩ | ⟨c, hc, hcreate⟩
    · rw [processOne]
      simp only [hdry, Bool.false_eq_true, if_false, hskip, hfetch, htext,
        he]
    · rw [processOne]
      simp only [hdry, Bool.false_eq_true, if_false, hskip, hfetch, htext,
        hc, hcreate]
  have h5 : runLoop env cfg docs (doc :: rest) st stats i =
      runLoop env cfg docs rest (processOne env cfg docs st stats i doc).1
        (processOne env cfg docs st stats i doc).2 (i + 1) := rfl
  rw [hres] at h5 ⊢
  exact ⟨rfl, rfl, rfl, hledger, h5⟩

theorem perDocument_failure_isolation_witness :
    DeclAcyclic loopDocs ∧
    ((envBodyFail loopDocs).getDocumentInfo loopLeaf.id =
      Except.ok loopLeaf) ∧
    (∃ e, (envBodyFail loopDocs).translateBody loopLeaf.text =
      Except.error e) ∧
    (processOne (envBodyFail loopDocs) loopCfg loopDocs
      (initialResolverState 0) ⟨1, 0, 0, 0⟩ 0 loopLeaf).2.errors = 1 ∧
    lookupA (processOne (envBodyFail loopDocs) loopCfg loopDocs
      (initialResolverState 0) ⟨1, 0, 0, 0⟩ 0
      loopLeaf).1.translations loopLeaf.id = none := by
  have hd : DeclAcyclic loopDocs :=
    declAcyclic_of_rank loopDocs chainRank (by decide)
  have h := perDocument_failure_isolation (envBodyFail loopDocs) loopCfg
    loopDocs (initialResolverState 0) ⟨1, 0, 0, 0⟩ 0 loopLeaf [] loopLeaf
    hd rfl rfl rfl rfl
    (Or.inl ⟨"Translation failed", rfl⟩)
  exact ⟨hd, rfl, ⟨"Translation failed", rfl⟩, h.1, h.2.2.2.1⟩

/-! ## C1: helper lemmas for the resolver invariant -/

theorem lookupA_eq_none_iff {α : Type} (l : List (String × α)) (k : String) :
    lookupA l k = none ↔ k ∉ l.map (fun kv => kv.1) := by
  rw [lookupA]
  cases hf : l.find? (fun kv => kv.1 == k) with
  | none =>
      simp only [Option.map_none', true_iff]
      intro hmem
      obtain ⟨kv, hkv, hk⟩ := List.mem_map.mp hmem
      have := List.find?_eq_none.mp hf kv hkv
      simp [hk] at this
  | some kv =>
      simp only [Option.map_some']
      constructor
      · intro h
        exact Option.noConfusion h
      · intro hmem
        exfalso
        apply hmem
        have hk := List.find?_some hf
        have hm := List.mem_of_find?_eq_some hf
        rw [List.mem_map]
        exact ⟨kv, hm, by simpa using hk⟩

theorem lookupA_some_mem {α : Type} (l : List (String × α)) (k : String)
    (v : α) (h : lookupA l k = some v) : (k, v) ∈ l := by
  rw [lookupA] at h
  obtain ⟨kv, hfind, hv⟩ := Option.map_eq_some'.mp h
  have hmem := List.mem_of_find?_eq_some hfind
  have hkey := List.find?_some hfind
  have hk : kv.1 = k := by simpa using hkey
  have : kv = (k, v) := by
    cases kv
    simp only [Prod.mk.injEq]
    exact ⟨hk, hv⟩
  exact this ▸ hmem

theorem mem_lookupA {α : Type} (l : List (String × α)) (k : String) (v : α)
    (hnodup : (l.map (fun kv => kv.1)).Nodup) (hmem : (k, v) ∈ l) :
    lookupA l k = some v := by
  induction l with
  | nil => cases hmem
  | cons a l ih =>
      rcases List.mem_cons.mp hmem with rfl | hmem2
      · simp [lookupA, List.find?]
      · have hk : a.1 ≠ k := by
          intro he
          have : a.1 ∈ l.map (fun kv => kv.1) := by
            rw [he, List.mem_map]
            exact ⟨(k, v), hmem2, rfl⟩
          exact (List.nodup_cons.mp hnodup).1 this
        have hbeq : (a.1 == k) = false := by simp [hk]
        rw [lookupA, List.find?]
        rw [hbeq]
        exact ih (List.nodup_cons.mp hnodup).2 hmem2

theorem lookupA_isSome_iff {α : Type} (l : List (String × α)) (k : String) :
    (lookupA l k).isSome = true ↔ k ∈ l.map (fun kv => kv.1) := by
  cases h : lookupA l k with
  | none =>
      simp only [Option.isSome_none, Bool.false_eq_true, false_iff]
      exact (lookupA_eq_none_iff l k).mp h
  | some v =>
      simp only [Option.isSome_some, true_iff]
      rw [List.mem_map]
      exact ⟨(k, v), lookupA_some_mem l k v h, rfl⟩

theorem freshId_ne_empty (n : Nat) : freshId n ≠ "" := by
  intro h
  have : (freshId n).data = ("" : String).data := by rw [h]
  rw [freshId] at this
  simp at this

theorem freshId_injective : Function.Injective freshId := by
  intro a b h
  have hdata : List.replicate (a + 1) 'x' = List.replicate (b + 1) 'x' :=
    congrArg String.data h
  have := congrArg List.length hdata
  simp at this
  exact this

theorem known_nodeDoc (docs : List OutlineDocument) (i : String)
    (h : knownId docs i = true) : ∃ d, nodeDoc docs i = some d := by
  rw [knownId, List.any_eq_true] at h
  obtain ⟨d, hd, hbeq⟩ := h
  rw [nodeDoc]
  cases hl : (docs.filter (fun e => e.id == i)).getLast? with
  | some e => exact ⟨e, rfl⟩
  | none =>
      rw [List.getLast?_eq_none_iff] at hl
      have : d ∈ docs.filter (fun e => e.id == i) :=
        List.mem_filter.mpr ⟨hd, hbeq⟩
      rw [hl] at this
      cases this

theorem nodeDoc_mem (docs : List OutlineDocument) (i : String)
    (d : OutlineDocument) (h : nodeDoc docs i = some d) : d ∈ docs := by
  rw [nodeDoc] at h
  exact (List.mem_filter.mp (List.mem_of_mem_getLast? h)).1

theorem find?_eq_some_of_unique {α : Type} (l : List α) (p : α → Bool)
    (f : α) (hf : f ∈ l) (hp : p f = true)
    (huniq : ∀ g ∈ l, p g = true → g = f) : l.find? p = some f := by
  induction l with
  | nil => cases hf
  | cons a l ih =>
      rcases List.mem_cons.mp hf with rfl | hf2
      · rw [List.find?_cons_of_pos _ hp]
      · by_cases hpa : p a = true
        · have : a = f := huniq a (List.mem_cons_self a l) hpa
          rw [this, List.find?_cons_of_pos _ hp]
        · rw [List.find?_cons_of_neg _ (by simpa using hpa)]
          exact ih hf2 (fun g hg hpg => huniq g (List.mem_cons_of_mem a hg) hpg)

theorem rinv_initial (docs : List OutlineDocument) (tr : String → String)
    (targetCol : String) (now : Int) :
    RInv docs tr targetCol (initialResolverState now) := by
  refine ⟨?_, ?_, ?_, ?_, ?_, ?_, ?_, ?_, ?_, ?_⟩ <;>
    simp [initialResolverState]

theorem findFolder_some_props (documents : List OutlineDocument)
    (name : String) (parentId : Option String) (f : OutlineDocument)
    (h : findFolderByName (Except.ok documents) name parentId = some f) :
    f ∈ documents ∧ f.title = name ∧ f.parentDocumentId = parentId := by
  rw [findFolderByName] at h
  have hmem := List.mem_of_find?_eq_some h
  have hpred := List.find?_some h
  simp only [Bool.and_eq_true, beq_iff_eq] at hpred
  exact ⟨hmem, hpred.1, hpred.2⟩

theorem optTarget_inj (docs : List OutlineDocument) (tr : String → String)
    (targetCol : String) (st : ResolverState)
    (inv : RInv docs tr targetCol st) (o1 o2 : Option String)
    (h1 : ∀ p, o1 = some p → p ∈ st.folderMappings.map (fun kv => kv.1))
    (h2 : ∀ p, o2 = some p → p ∈ st.folderMappings.map (fun kv => kv.1))
    (h : optTarget st o1 = optTarget st o2) : o1 = o2 := by
  have hsome : ∀ (p : String),
      p ∈ st.folderMappings.map (fun kv => kv.1) →
      ∃ mp, lookupA st.folderMappings p = some mp := by
    intro p hp
    have := (lookupA_isSome_iff st.folderMappings p).mpr hp
    cases hl : lookupA st.folderMappings p with
    | none => rw [hl] at this; exact Bool.noConfusion this
    | some mp => exact ⟨mp, rfl⟩
  cases o1 with
  | none =>
      cases o2 with
      | none => rfl
      | some q =>
          obtain ⟨mq, hmq⟩ := hsome q (h2 q rfl)
          rw [optTarget, optTarget, mappedTarget, hmq] at h
          exact Option.noConfusion h
  | some p =>
      obtain ⟨mp, hmp⟩ := hsome p (h1 p rfl)
      cases o2 with
      | none =>
          rw [optTarget, optTarget, mappedTarget, hmp] at h
          exact Option.noConfusion h
      | some q =>
          obtain ⟨mq, hmq⟩ := hsome q (h2 q rfl)
          rw [optTarget, optTarget, mappedTarget, mappedTarget, hmp, hmq] at h
          simp only [Option.map_some', Option.some.injEq] at h
          have hpmem := lookupA_some_mem _ _ _ hmp
          have hqmem := lookupA_some_mem _ _ _ hmq
          have hpq := List.inj_on_of_nodup_map inv.targets_nodup hpmem hqmem h
          have : p = q := congrArg Prod.fst hpq
          rw [this]

theorem no_adoption (docs : List OutlineDocument) (tr trBody : String → String)
    (targetCol : String) (st : ResolverState) (cur : Option String)
    (sd : OutlineDocument)
    (hsib : siblingTitlesInjective docs tr)
    (inv : RInv docs tr targetCol st)
    (hsd : nodeDoc docs sd.id = some sd)
    (hm : lookupA st.folderMappings sd.id = none)
    (hcur : cur = optTarget st (builtParent docs sd.id))
    (hparent : ∀ p, builtParent docs sd.id = some p →
      p ∈ st.folderMappings.map (fun kv => kv.1)) :
    findFolderByName (Except.ok st.targetDocs) (tr sd.title) cur = none := by
  cases hf : findFolderByName (Except.ok st.targetDocs) (tr sd.title) cur with
  | none => rfl
  | some f =>
      exfalso
      obtain ⟨hfmem, hftitle, hfparent⟩ :=
        findFolder_some_props st.targetDocs (tr sd.title) cur f hf
      obtain ⟨kvY, hkvY, htid⟩ := inv.folder_covered f hfmem
      obtain ⟨f2, hf2mem, hf2id, ⟨dY, hdY, hf2title⟩, hf2parent⟩ :=
        inv.folder_of kvY hkvY
      have hf2f : f2 = f := by
        apply List.inj_on_of_nodup_map inv.target_ids_nodup hf2mem hfmem
        show f2.id = f.id
        rw [hf2id, htid]
      rw [hf2f] at hf2title hf2parent
      have hbp_eq : builtParent docs sd.id = builtParent docs kvY.1 := by
        apply optTarget_inj docs tr targetCol st inv _ _ hparent
          (inv.parent_mapped kvY hkvY)
        rw [← hcur, ← hf2parent, hfparent]
      have hne : sd.id ≠ kvY.1 := by
        intro he
        have : sd.id ∈ st.folderMappings.map (fun kv => kv.1) := by
          rw [he, List.mem_map]
          exact ⟨kvY, hkvY, rfl⟩
        exact (lookupA_eq_none_iff _ _).mp hm this
      have hdYid : dY.id = kvY.1 := nodeDoc_id docs kvY.1 dY hdY
      apply hsib sd (nodeDoc_mem docs sd.id sd hsd) dY
        (nodeDoc_mem docs kvY.1 dY hdY)
        (by rw [hdYid]; exact hne)
        (by rw [hdYid]; exact hbp_eq)
      rw [← hftitle, hf2title]

theorem resolveStep_create_eq (docs : List OutlineDocument)
    (tr trBody : String → String) (targetCol : String) (st : ResolverState)
    (cur : Option String) (sd : OutlineDocument)
    (hm : lookupA st.folderMappings sd.id = none)
    (hl : getTranslatedDocument st.translations sd.id = none)
    (hf : findFolderByName (Except.ok st.targetDocs) (tr sd.title) cur = none) :
    resolveAncestorStep tr trBody targetCol st cur sd =
      (createdState tr trBody targetCol st cur sd,
       some (freshId st.nextId)) := by
  simp only [resolveAncestorStep, resolveAncestorStepFetch, hm, hl, hf,
    createDocument, insertA, createdState, createdFolder]

theorem jsTruthyStr_some_ne (s : String) (h : s ≠ "") :
    jsTruthyStr (some s) = some s := by
  simp [jsTruthyStr, h]

theorem optTarget_createdState (docs : List OutlineDocument)
    (tr trBody : String → String) (targetCol : String) (st : ResolverState)
    (cur : Option String) (sd : OutlineDocument)
    (hnot : sd.id ∉ st.folderMappings.map (fun kv => kv.1))
    (o : Option String)
    (ho : ∀ p, o = some p → p ∈ st.folderMappings.map (fun kv => kv.1)) :
    optTarget (createdState tr trBody targetCol st cur sd) o =
      optTarget st o := by
  cases o with
  | none => rfl
  | some p =>
      have hp := ho p rfl
      have hne : p ≠ sd.id := fun he => hnot (he ▸ hp)
      show mappedTarget (createdState tr trBody targetCol st cur sd) p =
        mappedTarget st p
      rw [mappedTarget, mappedTarget]
      have : lookupA (createdState tr trBody targetCol st cur
          sd).folderMappings p = lookupA st.folderMappings p := by
        show lookupA (insertA st.folderMappings sd.id _) p = _
        exact lookupA_insert_ne _ _ _ _ hne
      rw [this]

theorem curParent_jsTruthy (docs : List OutlineDocument)
    (tr : String → String) (targetCol : String) (st : ResolverState)
    (cur : Option String) (sd : OutlineDocument)
    (inv : RInv docs tr targetCol st)
    (hcur : cur = optTarget st (builtParent docs sd.id))
    (hparent : ∀ p, builtParent docs sd.id = some p →
      p ∈ st.folderMappings.map (fun kv => kv.1)) :
    jsTruthyStr cur = cur := by
  cases hbp : builtParent docs sd.id with
  | none =>
      rw [hbp] at hcur
      rw [hcur]
      rfl
  | some p =>
      rw [hbp] at hcur
      have hp := hparent p hbp
      have hs := (lookupA_isSome_iff st.folderMappings p).mpr hp
      cases hl : lookupA st.folderMappings p with
      | none => rw [hl] at hs; exact Bool.noConfusion hs
      | some mp =>
          obtain ⟨n, _, hfid⟩ :=
            inv.target_fresh (p, mp) (lookupA_some_mem _ _ _ hl)
          have : cur = some mp.targetId := by
            rw [hcur, optTarget, mappedTarget, hl]
            rfl
          rw [this, hfid]
          exact jsTruthyStr_some_ne _ (freshId_ne_empty n)

theorem resolveStep_spec (docs : List OutlineDocument)
    (tr trBody : String → String) (targetCol : String) (st : ResolverState)
    (cur : Option String) (sd : OutlineDocument)
    (hacy : BuiltAcyclic docs)
    (hsib : siblingTitlesInjective docs tr)
    (inv : RInv docs tr targetCol st)
    (hsd : nodeDoc docs sd.id = some sd)
    (hcur : cur = optTarget st (builtParent docs sd.id))
    (hparent : ∀ p, builtParent docs sd.id = some p →
      p ∈ st.folderMappings.map (fun kv => kv.1)) :
    RInv docs tr targetCol
      (resolveAncestorStep tr trBody targetCol st cur sd).1 ∧
    (resolveAncestorStep tr trBody targetCol st cur sd).2 =
      optTarget (resolveAncestorStep tr trBody targetCol st cur sd).1
        (some sd.id) ∧
    (∀ X, X ∈ (resolveAncestorStep tr trBody targetCol st cur
        sd).1.folderMappings.map (fun kv => kv.1) ↔
      X = sd.id ∨ X ∈ st.folderMappings.map (fun kv => kv.1)) ∧
    (∀ X m2, lookupA st.folderMappings X = some m2 →
      lookupA (resolveAncestorStep tr trBody targetCol st cur
        sd).1.folderMappings X = some m2) := by
  cases hm : lookupA st.folderMappings sd.id with
  | some m =>
      have hres : resolveAncestorStep tr trBody targetCol st cur sd =
          (st, some m.targetId) := by
        simp only [resolveAncestorStep, resolveAncestorStepFetch, hm]
      rw [hres]
      refine ⟨inv, ?_, ?_, fun X m2 h => h⟩
      · show some m.targetId = optTarget st (some sd.id)
        rw [optTarget, mappedTarget, hm]
        rfl
      · intro X
        constructor
        · exact Or.inr
        · rintro (rfl | hX)
          · rw [List.mem_map]
            exact ⟨(sd.id, m), lookupA_some_mem _ _ _ hm, rfl⟩
          · exact hX
  | none =>
      have hnotkeys : sd.id ∉ st.folderMappings.map (fun kv => kv.1) :=
        (lookupA_eq_none_iff _ _).mp hm
      have hl : getTranslatedDocument st.translations sd.id = none := by
        rw [getTranslatedDocument, lookupA_eq_none_iff, inv.ledger_keys]
        exact hnotkeys
      have hf := no_adoption docs tr trBody targetCol st cur sd hsib inv
        hsd hm hcur hparent
      have hres := resolveStep_create_eq docs tr trBody targetCol st cur sd
        hm hl hf
      rw [hres]
      have hjs := curParent_jsTruthy docs tr targetCol st cur sd inv hcur
        hparent
      have hopt := optTarget_createdState docs tr trBody targetCol st cur sd
        hnotkeys
      have hfreshnew : ∀ kv ∈ st.folderMappings,
          kv.2.targetId ≠ freshId st.nextId := by
        intro kv hkv he
        obtain ⟨n, hn, hfid⟩ := inv.target_fresh kv hkv
        rw [hfid] at he
        have := freshId_injective he
        omega
      refine ⟨?_, ?_, ?_, ?_⟩
      · refine ⟨?_, ?_, ?_, ?_, ?_, ?_, ?_, ?_, ?_, ?_⟩
        · show (List.map (fun kv => kv.1) ((sd.id, _) ::
            st.folderMappings)).Nodup
          rw [List.map_cons, List.nodup_cons]
          exact ⟨hnotkeys, inv.keys_nodup⟩
        · show List.map (fun kv => kv.1) ((sd.id, _) :: st.translations) =
            List.map (fun kv => kv.1) ((sd.id, _) :: st.folderMappings)
          rw [List.map_cons, List.map_cons, inv.ledger_keys]
        · intro kv hkv
          rcases List.mem_cons.mp hkv with rfl | hkv2
          · rfl
          · exact inv.entry_src kv hkv2
        · show (st.targetDocs ++ [_]).length =
            ((sd.id, _) :: st.folderMappings).length
          rw [List.length_append, List.length_cons, inv.counts]
          rfl
        · intro kv hkv
          rcases List.mem_cons.mp hkv with rfl | hkv2
          · refine ⟨createdFolder tr trBody targetCol st cur sd,
              List.mem_append_right _ (List.mem_singleton_self _), rfl,
              ⟨sd, hsd, rfl⟩, ?_⟩
            show jsTruthyStr cur = optTarget _ (builtParent docs sd.id)
            rw [hjs, hopt (builtParent docs sd.id) hparent, hcur]
          · obtain ⟨f2, hf2mem, hf2id, htitle, hf2parent⟩ :=
              inv.folder_of kv hkv2
            refine ⟨f2, List.mem_append_left _ hf2mem, hf2id, htitle, ?_⟩
            rw [hf2parent]
            exact (hopt (builtParent docs kv.1)
              (inv.parent_mapped kv hkv2)).symm
        · intro kv hkv
          rcases List.mem_cons.mp hkv with rfl | hkv2
          · exact ⟨st.nextId, by show st.nextId < st.nextId + 1; omega, rfl⟩
          · obtain ⟨n, hn, hfid⟩ := inv.target_fresh kv hkv2
            exact ⟨n, by show n < st.nextId + 1; omega, hfid⟩
        · show (List.map (fun kv => kv.2.targetId) ((sd.id, _) ::
            st.folderMappings)).Nodup
          rw [List.map_cons, List.nodup_cons]
          constructor
          · intro hmem
            obtain ⟨kv, hkv, he⟩ := List.mem_map.mp hmem
            exact hfreshnew kv hkv he
          · exact inv.targets_nodup
        · intro g hg
          rcases List.mem_append.mp hg with hg2 | hg2
          · obtain ⟨kv, hkv, he⟩ := inv.folder_covered g hg2
            exact ⟨kv, List.mem_cons_of_mem _ hkv, he⟩
          · rw [List.mem_singleton] at hg2
            refine ⟨(sd.id, _), List.mem_cons_self _ _, ?_⟩
            rw [hg2]
            rfl
        · show (List.map (fun f => f.id) (st.targetDocs ++ [_])).Nodup
          rw [List.map_append, List.nodup_append]
          refine ⟨inv.target_ids_nodup, List.nodup_singleton _, ?_⟩
          intro x hx hx2
          simp only [List.map_cons, List.map_nil, List.mem_singleton] at hx2
          obtain ⟨g, hg, hgid⟩ := List.mem_map.mp hx
          obtain ⟨kv, hkv, he⟩ := inv.folder_covered g hg
          apply hfreshnew kv hkv
          rw [he, hgid, hx2]
          rfl
        · intro kv hkv p hp
          rcases List.mem_cons.mp hkv with rfl | hkv2
          · have h2 := hparent p hp
            show p ∈ List.map (fun kv2 => kv2.1)
              ((sd.id, _) :: st.folderMappings)
            rw [List.map_cons]
            exact List.mem_cons_of_mem _ h2
          · have h2 := inv.parent_mapped kv hkv2 p hp
            show p ∈ List.map (fun kv2 => kv2.1)
              ((sd.id, _) :: st.folderMappings)
            rw [List.map_cons]
            exact List.mem_cons_of_mem _ h2
      · show some (freshId st.nextId) = optTarget _ (some sd.id)
        show some (freshId st.nextId) = mappedTarget _ sd.id
        rw [mappedTarget]
        have : lookupA (createdState tr trBody targetCol st cur
            sd).folderMappings sd.id = some
            { sourceId := sd.id, targetId := freshId st.nextId,
              sourceName := sd.title, targetName := tr sd.title } := by
          show lookupA (insertA st.folderMappings sd.id _) sd.id = _
          exact lookupA_insert_self _ _ _
        rw [this]
        rfl
      · intro X
        show X ∈ List.map (fun kv => kv.1) ((sd.id, _) ::
          st.folderMappings) ↔ _
        rw [List.map_cons, List.mem_cons]
      · intro X m2 h
        have hXne : X ≠ sd.id := by
          intro he
          rw [he, hm] at h
          exact Option.noConfusion h
        show lookupA (insertA st.folderMappings sd.id _) X = some m2
        rw [lookupA_insert_ne _ _ _ _ hXne]
        exact h

theorem ensureFolderLoop_spec (docs : List OutlineDocument)
    (tr trBody : String → String) (targetCol : String)
    (hacy : BuiltAcyclic docs) (hsib : siblingTitlesInjective docs tr) :
    ∀ (ids : List String) (st : ResolverState) (cur : Option String),
    RInv docs tr targetCol st →
    List.Chain' (fun a b => builtParent docs b = some a) ids →
    (∀ i ∈ ids, knownId docs i = true) →
    (∀ h0, ids.head? = some h0 →
      cur = optTarget st (builtParent docs h0) ∧
      (∀ p, builtParent docs h0 = some p →
        p ∈ st.folderMappings.map (fun kv => kv.1))) →
    RInv docs tr targetCol
      (ensureFolderLoop tr trBody docs targetCol ids st cur).1 ∧
    (∀ X, X ∈ (ensureFolderLoop tr trBody docs targetCol ids st
        cur).1.folderMappings.map (fun kv => kv.1) ↔
      X ∈ ids ∨ X ∈ st.folderMappings.map (fun kv => kv.1)) ∧
    (∀ X m, lookupA st.folderMappings X = some m →
      lookupA (ensureFolderLoop tr trBody docs targetCol ids st
        cur).1.folderMappings X = some m) := by
  intro ids
  induction ids with
  | nil =>
      intro st cur inv _ _ _
      refine ⟨inv, ?_, fun X m h => h⟩
      intro X
      constructor
      · exact fun h => Or.inr h
      · rintro (h | h)
        · exact absurd h (List.not_mem_nil X)
        · exact h
  | cons i rest ih =>
      intro st cur inv hchain hknown hhead
      obtain ⟨hcur, hparent⟩ := hhead i rfl
      obtain ⟨d, hnd⟩ := known_nodeDoc docs i (hknown i (List.mem_cons_self i rest))
      have hdid : d.id = i := nodeDoc_id docs i d hnd
      have hnd2 : nodeDoc docs d.id = some d := by rw [hdid]; exact hnd
      have hcur2 : cur = optTarget st (builtParent docs d.id) := by
        rw [hdid]; exact hcur
      have hparent2 : ∀ p, builtParent docs d.id = some p →
          p ∈ st.folderMappings.map (fun kv => kv.1) := by
        rw [hdid]; exact hparent
      obtain ⟨inv2, hcur3, hkeys2, hmono2⟩ := resolveStep_spec docs tr trBody
        targetCol st cur d hacy hsib inv hnd2 hcur2 hparent2
      have hloop : ensureFolderLoop tr trBody docs targetCol (i :: rest) st
          cur = ensureFolderLoop tr trBody docs targetCol rest
            (resolveAncestorStep tr trBody targetCol st cur d).1
            (resolveAncestorStep tr trBody targetCol st cur d).2 := by
        show (match nodeDoc docs i with
          | none => ensureFolderLoop tr trBody docs targetCol rest st cur
          | some sourceDoc =>
              let stepped := resolveAncestorStep tr trBody targetCol st cur
                sourceDoc
              ensureFolderLoop tr trBody docs targetCol rest stepped.1
                stepped.2) = _
        rw [hnd]
      rw [hloop]
      have hresthead : ∀ h0, rest.head? = some h0 →
          (resolveAncestorStep tr trBody targetCol st cur d).2 =
            optTarget (resolveAncestorStep tr trBody targetCol st cur d).1
              (builtParent docs h0) ∧
          (∀ p, builtParent docs h0 = some p →
            p ∈ (resolveAncestorStep tr trBody targetCol st cur
              d).1.folderMappings.map (fun kv => kv.1)) := by
        intro h0 hh0
        obtain ⟨rest2, rfl⟩ : ∃ rest2, rest = h0 :: rest2 := by
          cases rest with
          | nil => exact Option.noConfusion hh0
          | cons a rest2 =>
              rw [List.head?_cons] at hh0
              exact ⟨rest2, by rw [Option.some_inj.mp hh0]⟩
        have hrel : builtParent docs h0 = some i :=
          (List.chain'_cons.mp hchain).1
        constructor
        · rw [hrel, ← hdid]
          exact hcur3
        · intro p hp
          have : p = i := by
            rw [hrel] at hp
            exact (Option.some_inj.mp hp).symm
          rw [this]
          rw [hkeys2]
          exact Or.inl hdid.symm
      obtain ⟨invF, hkeysF, hmonoF⟩ := ih
        (resolveAncestorStep tr trBody targetCol st cur d).1
        (resolveAncestorStep tr trBody targetCol st cur d).2
        inv2 hchain.tail
        (fun j hj => hknown j (List.mem_cons_of_mem i hj)) hresthead
      refine ⟨invF, ?_, fun X m h => hmonoF X m (hmono2 X m h)⟩
      intro X
      rw [hkeysF, hkeys2 X, List.mem_cons]
      constructor
      · rintro (hX | rfl | hX)
        · exact Or.inl (Or.inr hX)
        · exact Or.inl (Or.inl hdid)
        · exact Or.inr hX
      · rintro ((rfl | hX) | hX)
        · exact Or.inr (Or.inl hdid.symm)
        · exact Or.inl hX
        · exact Or.inr (Or.inr hX)

theorem ensureFolderStructure_spec (docs : List OutlineDocument)
    (tr trBody : String → String) (targetCol : String)
    (hdecl : DeclAcyclic docs) (hsib : siblingTitlesInjective docs tr)
    (st : ResolverState) (leaf : String)
    (inv : RInv docs tr targetCol st) :
    RInv docs tr targetCol
      (ensureFolderStructure tr trBody docs targetCol st leaf).1 ∧
    (∀ X, X ∈ (ensureFolderStructure tr trBody docs targetCol st
        leaf).1.folderMappings.map (fun kv => kv.1) ↔
      X ∈ properAncestors docs leaf ∨
        X ∈ st.folderMappings.map (fun kv => kv.1)) ∧
    (∀ X m, lookupA st.folderMappings X = some m →
      lookupA (ensureFolderStructure tr trBody docs targetCol st
        leaf).1.folderMappings X = some m) := by
  have hacy := builtAcyclic_of_declAcyclic docs hdecl
  have hefs : ensureFolderStructure tr trBody docs targetCol st leaf =
      (if (properAncestors docs leaf).isEmpty then (st, none)
       else ensureFolderLoop tr trBody docs targetCol
         (properAncestors docs leaf) st none) := rfl
  by_cases hempty : (properAncestors docs leaf).isEmpty
  · rw [hefs, if_pos hempty]
    have hnil : properAncestors docs leaf = [] := List.isEmpty_iff.mp hempty
    refine ⟨inv, ?_, fun X m h => h⟩
    intro X
    rw [hnil]
    constructor
    · exact fun h => Or.inr h
    · rintro (h | h)
      · exact absurd h (List.not_mem_nil X)
      · exact h
  · rw [hefs, if_neg hempty]
    have hk : knownId docs leaf = true := by
      by_contra hk2
      apply hempty
      have : getDocumentPath docs (docs.length + 1) leaf = [] := by
        rw [getDocumentPath, if_neg hk2]
        cases h3 : docs.length + 1 <;> simp [pathAux]
      rw [properAncestors, this]
      rfl
    obtain ⟨k, hkle, hknone⟩ := iterParent_reaches_none docs hacy (some leaf)
    have hterm : ∃ k2, k2 ≤ docs.length + 1 ∧
        iterParent docs k2 (some leaf) = none := ⟨k, hkle, hknone⟩
    obtain ⟨⟨r, rrest, hpath, hroot⟩, hchain⟩ :=
      pathAux_spec docs (docs.length + 1) leaf hterm
    have hgdp : getDocumentPath docs (docs.length + 1) leaf =
        pathAux docs (docs.length + 1) (some leaf) [] := by
      rw [getDocumentPath, if_pos hk]
    apply ensureFolderLoop_spec docs tr trBody targetCol hacy hsib
      (properAncestors docs leaf) st none inv
    · rw [properAncestors, hgdp]
      exact hchain.init
    · intro i hi
      apply pathAux_mem_known docs (docs.length + 1) leaf i hk
      rw [properAncestors, hgdp] at hi
      exact (List.dropLast_sublist _).mem hi
    · intro h0 hh0
      have hh0r : h0 = r := by
        rw [properAncestors, hgdp, hpath] at hh0
        cases rrest with
        | nil => simp at hh0
        | cons a rrest2 =>
            rw [List.dropLast_cons₂, List.head?_cons] at hh0
            exact (Option.some_inj.mp hh0).symm
      rw [hh0r, hroot]
      exact ⟨rfl, fun p hp => Option.noConfusion hp⟩

theorem runResolver_spec (docs : List OutlineDocument)
    (tr trBody : String → String) (targetCol : String)
    (hdecl : DeclAcyclic docs) (hsib : siblingTitlesInjective docs tr) :
    ∀ (leaves : List String) (st : ResolverState),
    RInv docs tr targetCol st →
    RInv docs tr targetCol (runResolver tr trBody docs targetCol leaves st) ∧
    (∀ X, X ∈ (runResolver tr trBody docs targetCol leaves
        st).folderMappings.map (fun kv => kv.1) ↔
      X ∈ allProperAncestors docs leaves ∨
        X ∈ st.folderMappings.map (fun kv => kv.1)) ∧
    (∀ X m, lookupA st.folderMappings X = some m →
      lookupA (runResolver tr trBody docs targetCol leaves
        st).folderMappings X = some m) := by
  intro leaves
  induction leaves with
  | nil =>
      intro st inv
      refine ⟨inv, ?_, fun X m h => h⟩
      intro X
      constructor
      · exact fun h => Or.inr h
      · rintro (h | h)
        · exact absurd h (List.not_mem_nil X)
        · exact h
  | cons leaf rest ih =>
      intro st inv
      obtain ⟨inv1, hkeys1, hmono1⟩ := ensureFolderStructure_spec docs tr
        trBody targetCol hdecl hsib st leaf inv
      have hrun : runResolver tr trBody docs targetCol (leaf :: rest) st =
          runResolver tr trBody docs targetCol rest
            (ensureFolderStructure tr trBody docs targetCol st leaf).1 := rfl
      rw [hrun]
      obtain ⟨invF, hkeysF, hmonoF⟩ := ih
        (ensureFolderStructure tr trBody docs targetCol st leaf).1 inv1
      refine ⟨invF, ?_, fun X m h => hmonoF X m (hmono1 X m h)⟩
      intro X
      rw [hkeysF, hkeys1 X]
      simp only [allProperAncestors, List.flatMap_cons, List.mem_append]
      constructor
      · rintro (hX | hX | hX)
        · exact Or.inl (Or.inr hX)
        · exact Or.inl (Or.inl hX)
        · exact Or.inr hX
      · rintro ((hX | hX) | hX)
        · exact Or.inr (Or.inl hX)
        · exact Or.inl hX
        · exact Or.inr (Or.inr hX)

theorem nodup_length_eq_dedup_length (l1 l2 : List String) (h1 : l1.Nodup)
    (hiff : ∀ x, x ∈ l1 ↔ x ∈ l2) : l1.length = l2.dedup.length := by
  have hfin : l1.toFinset = l2.dedup.toFinset := by
    apply Finset.ext
    intro x
    rw [List.mem_toFinset, List.mem_toFinset, List.mem_dedup]
    exact hiff x
  calc l1.length = l1.toFinset.card := (List.toFinset_card_of_nodup h1).symm
    _ = l2.dedup.toFinset.card := by rw [hfin]
    _ = l2.dedup.length := List.toFinset_card_of_nodup (List.nodup_dedup l2)

theorem resolvedParentSource_char (docs : List OutlineDocument)
    (tr : String → String) (targetCol : String) (st : ResolverState)
    (inv : RInv docs tr targetCol st) (X : String) :
    resolvedParentSource st X =
      if X ∈ st.folderMappings.map (fun kv => kv.1) then
        some (builtParent docs X)
      else none := by
  by_cases hX : X ∈ st.folderMappings.map (fun kv => kv.1)
  · rw [if_pos hX]
    have hs := (lookupA_isSome_iff st.folderMappings X).mpr hX
    cases hm : lookupA st.folderMappings X with
    | none => rw [hm] at hs; exact Bool.noConfusion hs
    | some m =>
        have hmmem := lookupA_some_mem _ _ _ hm
        obtain ⟨f, hfmem, hfid, _, hfparent⟩ := inv.folder_of (X, m) hmmem
        have hfind : st.targetDocs.find? (fun g => g.id == m.targetId) =
            some f := by
          apply find?_eq_some_of_unique _ _ f hfmem (by simp [hfid])
          intro g hg hpg
          simp only [beq_iff_eq] at hpg
          exact List.inj_on_of_nodup_map inv.target_ids_nodup hg hfmem
            (by rw [hpg, hfid])
        rw [resolvedParentSource, hm, Option.some_bind, hfind,
          Option.map_some', Option.some_inj, hfparent]
        cases hbp : builtParent docs X with
        | none => rfl
        | some p =>
            have hp := inv.parent_mapped (X, m) hmmem p hbp
            have hps := (lookupA_isSome_iff st.folderMappings p).mpr hp
            cases hmp : lookupA st.folderMappings p with
            | none => rw [hmp] at hps; exact Bool.noConfusion hps
            | some mp =>
                have hmpmem := lookupA_some_mem _ _ _ hmp
                have hopt : optTarget st (some p) = some mp.targetId := by
                  rw [optTarget, mappedTarget, hmp]
                  rfl
                rw [hopt]
                have hfind2 : st.folderMappings.find?
                    (fun kv => kv.2.targetId == mp.targetId) =
                    some (p, mp) := by
                  apply find?_eq_some_of_unique _ _ (p, mp) hmpmem (by simp)
                  intro kv hkv hpkv
                  simp only [beq_iff_eq] at hpkv
                  exact List.inj_on_of_nodup_map inv.targets_nodup hkv
                    hmpmem hpkv
                rw [backSource, hfind2, Option.map_some']
                rw [inv.entry_src (p, mp) hmpmem]
  · rw [if_neg hX]
    have hm : lookupA st.folderMappings X = none :=
      (lookupA_eq_none_iff _ _).mpr hX
    rw [resolvedParentSource, hm, Option.none_bind]

/-- C1 (amended): for a source forest whose declared parents are
acyclic and in which distinct sibling documents keep distinct titles
after translation, running `ensureFolderStructure` for every leaf of a
list, in that order, from the clean initial state (empty cache, empty
ledger, empty destination) resolves exactly the distinct proper
ancestors of the leaves: one destination folder is created per distinct
source ancestor (no more — the destination count equals the number of
distinct ancestors), each folder carries the translated title of its
source node and is parented onto the folder of the source node's own
parent, and the materialised source-level parent linkage is the source
forest's parent relation restricted to the resolved ancestors — in
particular it is identical for every permutation of the processing
order, as is the set of resolved ancestors and the number of created
folders.  (Without the sibling-title hypothesis the claim fails: the
destination-search fallback conflates same-titled siblings, see the
collision counterexample.) -/
theorem folder_resolution_idempotent (docs : List OutlineDocument)
    (tr trBody : String → String) (targetCol : String) (now : Int)
    (leaves : List String)
    (hdecl : DeclAcyclic docs)
    (hsib : siblingTitlesInjective docs tr) :
    (∀ X, X ∈ (runResolver tr trBody docs targetCol leaves
        (initialResolverState now)).folderMappings.map (fun kv => kv.1) ↔
      X ∈ allProperAncestors docs leaves) ∧
    (runResolver tr trBody docs targetCol leaves
        (initialResolverState now)).targetDocs.length =
      (allProperAncestors docs leaves).dedup.length ∧
    (∀ X m, lookupA (runResolver tr trBody docs targetCol leaves
        (initialResolverState now)).folderMappings X = some m →
      ∃ f ∈ (runResolver tr trBody docs targetCol leaves
          (initialResolverState now)).targetDocs,
        f.id = m.targetId ∧
        (∃ d, nodeDoc docs X = some d ∧ f.title = tr d.title) ∧
        f.parentDocumentId =
          optTarget (runResolver tr trBody docs targetCol leaves
            (initialResolverState now)) (builtParent docs X)) ∧
    (∀ X, resolvedParentSource (runResolver tr trBody docs targetCol leaves
        (initialResolverState now)) X =
      if X ∈ allProperAncestors docs leaves then some (builtParent docs X)
      else none) ∧
    (∀ leaves2, leaves.Perm leaves2 →
      (∀ X, X ∈ (runResolver tr trBody docs targetCol leaves2
          (initialResolverState now)).folderMappings.map (fun kv => kv.1) ↔
        X ∈ (runResolver tr trBody docs targetCol leaves
          (initialResolverState now)).folderMappings.map (fun kv => kv.1)) ∧
      (runResolver tr trBody docs targetCol leaves2
          (initialResolverState now)).targetDocs.length =
        (runResolver tr trBody docs targetCol leaves
          (initialResolverState now)).targetDocs.length ∧
      (∀ X, resolvedParentSource (runResolver tr trBody docs targetCol
          leaves2 (initialResolverState now)) X =
        resolvedParentSource (runResolver tr trBody docs targetCol leaves
          (initialResolverState now)) X)) := by
  obtain ⟨inv, hkeys0, _⟩ := runResolver_spec docs tr trBody targetCol hdecl
    hsib leaves (initialResolverState now)
    (rinv_initial docs tr targetCol now)
  have hkeys : ∀ X, X ∈ (runResolver tr trBody docs targetCol leaves
      (initialResolverState now)).folderMappings.map (fun kv => kv.1) ↔
      X ∈ allProperAncestors docs leaves := by
    intro X
    rw [hkeys0 X]
    constructor
    · rintro (h | h)
      · exact h
      · exact absurd h (List.not_mem_nil X)
    · exact Or.inl
  have hcount : (runResolver tr trBody docs targetCol leaves
      (initialResolverState now)).targetDocs.length =
      (allProperAncestors docs leaves).dedup.length := by
    rw [inv.counts]
    have : (runResolver tr trBody docs targetCol leaves
        (initialResolverState now)).folderMappings.length =
        ((runResolver tr trBody docs targetCol leaves
          (initialResolverState now)).folderMappings.map
          (fun kv => kv.1)).length := by
      rw [List.length_map]
    rw [this]
    exact nodup_length_eq_dedup_length _ _ inv.keys_nodup hkeys
  have hlink : ∀ X, resolvedParentSource (runResolver tr trBody docs
      targetCol leaves (initialResolverState now)) X =
      if X ∈ allProperAncestors docs leaves then some (builtParent docs X)
      else none := by
    intro X
    rw [resolvedParentSource_char docs tr targetCol _ inv X]
    by_cases hX : X ∈ allProperAncestors docs leaves
    · rw [if_pos hX, if_pos ((hkeys X).mpr hX)]
    · rw [if_neg hX, if_neg (fun h => hX ((hkeys X).mp h))]
  refine ⟨hkeys, hcount, ?_, hlink, ?_⟩
  · intro X m hm
    exact inv.folder_of (X, m) (lookupA_some_mem _ _ _ hm)
  · intro leaves2 hperm
    obtain ⟨inv2, hkeys02, _⟩ := runResolver_spec docs tr trBody targetCol
      hdecl hsib leaves2 (initialResolverState now)
      (rinv_initial docs tr targetCol now)
    have hancs : ∀ X, X ∈ allProperAncestors docs leaves2 ↔
        X ∈ allProperAncestors docs leaves := by
      intro X
      rw [allProperAncestors, allProperAncestors, List.mem_flatMap,
        List.mem_flatMap]
      constructor
      · rintro ⟨l, hl, hX⟩
        exact ⟨l, hperm.mem_iff.mpr hl, hX⟩
      · rintro ⟨l, hl, hX⟩
        exact ⟨l, hperm.mem_iff.mp hl, hX⟩
    have hkeys2 : ∀ X, X ∈ (runResolver tr trBody docs targetCol leaves2
        (initialResolverState now)).folderMappings.map (fun kv => kv.1) ↔
        X ∈ allProperAncestors docs leaves2 := by
      intro X
      rw [hkeys02 X]
      constructor
      · rintro (h | h)
        · exact h
        · exact absurd h (List.not_mem_nil X)
      · exact Or.inl
    have hcount2 : (runResolver tr trBody docs targetCol leaves2
        (initialResolverState now)).targetDocs.length =
        (allProperAncestors docs leaves2).dedup.length := by
      rw [inv2.counts]
      have : (runResolver tr trBody docs targetCol leaves2
          (initialResolverState now)).folderMappings.length =
          ((runResolver tr trBody docs targetCol leaves2
            (initialResolverState now)).folderMappings.map
            (fun kv => kv.1)).length := by
        rw [List.length_map]
      rw [this]
      exact nodup_length_eq_dedup_length _ _ inv2.keys_nodup hkeys2
    refine ⟨?_, ?_, ?_⟩
    · intro X
      rw [hkeys2 X, hkeys X]
      exact hancs X
    · rw [hcount2, hcount]
      apply nodup_length_eq_dedup_length
      · exact List.nodup_dedup _
      · intro x
        rw [List.mem_dedup]
        exact hancs x
    · intro X
      rw [hlink X, resolvedParentSource_char docs tr targetCol _ inv2 X]
      by_cases hX : X ∈ allProperAncestors docs leaves
      · rw [if_pos hX, if_pos ((hkeys2 X).mpr ((hancs X).mpr hX))]
      · rw [if_neg hX,
          if_neg (fun h => hX ((hancs X).mp ((hkeys2 X).mp h)))]

/-- C1 (counterexample): the claim promises exactly one destination
folder per distinct source ancestor for any input.  `collideDocs` is a
well-formed forest (acyclic, distinct ids) in which the two leaves
share the common ancestor `"R"` and their remaining ancestors `"AA"`
and `"CC"` are siblings with the same title: running
`ensureFolderStructure` for both leaves from a clean state creates only
2 destination folders for the 3 distinct source ancestors — the
destination-search fallback matches `"CC"`'s translated title and
parent against the folder already created for `"AA"` and adopts it. -/
theorem folder_resolution_collision_counterexample :
    DeclAcyclic collideDocs ∧
    (collideDocs.map (fun d => d.id)).Nodup ∧
    properAncestors collideDocs "L1" = ["R", "AA"] ∧
    properAncestors collideDocs "L2" = ["R", "CC"] ∧
    (allProperAncestors collideDocs ["L1", "L2"]).dedup.length = 3 ∧
    (runResolver trId trId collideDocs "tgt" ["L1", "L2"]
      (initialResolverState 0)).targetDocs.length = 2 := by
  refine ⟨declAcyclic_of_rank collideDocs collideRank (by decide),
    by decide, ?_, ?_, ?_, ?_⟩ <;> rfl

theorem folder_resolution_idempotent_witness :
    DeclAcyclic chainDocs ∧
    siblingTitlesInjective chainDocs trId ∧
    (∀ X, X ∈ (runResolver trId trId chainDocs "tgt" ["L"]
        (initialResolverState 0)).folderMappings.map (fun kv => kv.1) ↔
      X ∈ allProperAncestors chainDocs ["L"]) ∧
    (runResolver trId trId chainDocs "tgt" ["L"]
        (initialResolverState 0)).targetDocs.length =
      (allProperAncestors chainDocs ["L"]).dedup.length := by
  have hd : DeclAcyclic chainDocs :=
    declAcyclic_of_rank chainDocs chainRank (by decide)
  have hs : siblingTitlesInjective chainDocs trId := by
    show ∀ d ∈ chainDocs, ∀ e ∈ chainDocs, d.id ≠ e.id →
      builtParent chainDocs d.id = builtParent chainDocs e.id →
      trId d.title ≠ trId e.title
    decide
  have h := folder_resolution_idempotent chainDocs trId trId "tgt" 0 ["L"]
    hd hs
  exact ⟨hd, hs, h.1, h.2.1⟩
